import Mathlib

/-!
# KeyV firmware runtime: heap allocator, pad allocator and pad encoder

A shallow embedding of `software/firmware/stdlib.c` (with the constants of
`stdlib.h`) and of the function `fibonacci` of `software/benchmark/fibo/fibo.c`
for the RV32 target: `size_t`, `int` and pointers are 32 bits wide,
`sizeof(int) = 4`, and every unsigned operation is taken modulo `2^32`.

* The three file-scope cursors `heap_used`, `pad_used`, `pad_align` and the
  data memory form the `State`.
* Data memory is represented by the sequence of store instructions executed so
  far (newest first); `load8` and `load32` read it back, little-endian.
* `asm("ebreak")` halts the processor: a call that reaches it yields
  `Res.trap` carrying the state at the halt, and nothing after it runs.
* A C string is the list of its bytes; the byte following the list is the
  terminating NUL.
-/

namespace KeyV

/-! ## Constants of `stdlib.h` and 32-bit arithmetic -/

/-- The macro `HEAP_START` of `stdlib.h`. -/
abbrev HEAP_START : Nat := 0x00008000

/-- The macro `HEAP_SIZE` of `stdlib.h`. -/
abbrev HEAP_SIZE : Nat := 32768

/-- The macro `PAD_START` of `stdlib.h`. -/
abbrev PAD_START : Nat := 0x00010004

/-- The macro `PAD_SIZE` of `stdlib.h`. -/
abbrev PAD_SIZE : Nat := 1024

/-- Unsigned 32-bit addition (`size_t` on RV32). -/
def wadd (a b : Nat) : Nat := (a + b) % 2 ^ 32

/-- Unsigned 32-bit subtraction (`size_t` on RV32): wraps below zero. -/
def wsub (a b : Nat) : Nat := (a + (2 ^ 32 - b % 2 ^ 32)) % 2 ^ 32

/-! ## Machine state -/

/-- One executed store instruction: `sb` writes the low byte of `val` at `addr`,
`sw` writes the four bytes of `val` at `addr .. addr + 3`, least significant
byte first. -/
inductive Store where
  | sb (addr val : Nat)
  | sw (addr val : Nat)
deriving DecidableEq, Repr

/-- The byte a single store leaves at address `x`, if it covers `x`. -/
def Store.byteAt : Store → Nat → Option Nat
  | Store.sb a v, x => if x = a then some (v % 256) else none
  | Store.sw a v, x => if a ≤ x ∧ x < a + 4 then some (v / 256 ^ (x - a) % 256) else none

/-- The first address a store writes. -/
def Store.addr : Store → Nat
  | Store.sb a _ => a
  | Store.sw a _ => a

/-- The number of bytes a store writes. -/
def Store.size : Store → Nat
  | Store.sb _ _ => 1
  | Store.sw _ _ => 4

/-- The file-scope variables of `stdlib.c` together with data memory. -/
structure State where
  heap_used : Nat
  pad_used : Nat
  pad_align : Nat
  mem : List Store
deriving DecidableEq, Repr

/-- The state at process start: `heap_used = pad_used = pad_align = 0` and no
store executed yet. -/
def State.init : State := ⟨0, 0, 0, []⟩

/-- Read one byte of memory: the newest store covering the address decides;
`none` when no store has written it. -/
def load8 : List Store → Nat → Option Nat
  | [], _ => none
  | s :: rest, x =>
    match s.byteAt x with
    | some b => some b
    | none => load8 rest x

/-- Read a 32-bit little-endian word of memory. -/
def load32 (mem : List Store) (a : Nat) : Option Nat :=
  match load8 mem a, load8 mem (a + 1), load8 mem (a + 2), load8 mem (a + 3) with
  | some b0, some b1, some b2, some b3 => some (b0 + 256 * b1 + 256 ^ 2 * b2 + 256 ^ 3 * b3)
  | _, _, _, _ => none

/-- The outcome of running a piece of the firmware: it returns a value in a new
state, or it executes `ebreak` (the processor halts in the given state), or it
leaves defined behaviour (a read past a string terminator, a `va_arg` that
does not match the argument passed). -/
inductive Res (α : Type) where
  | ok : α → State → Res α
  | trap : State → Res α
  | undef : Res α
deriving DecidableEq, Repr

/-- Sequencing: the continuation runs only after a normal return. -/
def Res.bind {α β : Type} (r : Res α) (f : α → State → Res β) : Res β :=
  match r with
  | Res.ok a st => f a st
  | Res.trap st => Res.trap st
  | Res.undef => Res.undef

/-! ## `malloc` and `palloc` -/

/-- The function `malloc` of `stdlib.c`. -/
def malloc (t : Nat) (st : State) : Res Nat :=
  let heap_align := t % 4
  let heap_block := if heap_align > 0 then wsub (wadd t 4) heap_align else t
  let heap_used := wadd st.heap_used heap_block
  let st1 := { st with heap_used := heap_used }
  if heap_used > HEAP_SIZE then Res.trap st1
  else Res.ok (wsub (wadd HEAP_START heap_used) heap_block) st1

/-- The function `palloc` of `stdlib.c`. -/
def palloc (t : Nat) (st : State) : Res Nat :=
  let pad_used1 := wadd st.pad_used t
  let pad_used2 :=
    if t ≥ 4 ∧ st.pad_align > 0 then wadd pad_used1 (wsub 4 st.pad_align) else pad_used1
  let st1 := { st with pad_used := pad_used2 }
  if pad_used2 > PAD_SIZE then Res.trap st1
  else
    let pad_align := if st.pad_align < wsub 4 t then wadd st.pad_align t else 0
    Res.ok (wsub (wadd PAD_START pad_used2) t) { st1 with pad_align := pad_align }

/-- A run of `malloc` calls, one per requested size, collecting the returned
addresses. -/
def malloc_seq : List Nat → State → Res (List Nat)
  | [], st => Res.ok [] st
  | t :: ts, st =>
    (malloc t st).bind fun p st1 =>
      (malloc_seq ts st1).bind fun ps st2 => Res.ok (p :: ps) st2

/-- A run of `palloc` calls, one per requested size, collecting the returned
addresses. -/
def palloc_seq : List Nat → State → Res (List Nat)
  | [], st => Res.ok [] st
  | t :: ts, st =>
    (palloc t st).bind fun p st1 =>
      (palloc_seq ts st1).bind fun ps st2 => Res.ok (p :: ps) st2

/-! ## The pad encoder -/

/-- An argument passed through the variadic list of `print_pad`: an `int`
(its 32-bit pattern) or a pointer to a C string (the bytes it points to). -/
inductive Arg where
  | int (v : Nat)
  | str (s : List Nat)
deriving DecidableEq, Repr

/-- The function `print_c` of `stdlib.c`: one byte store at a fresh pad byte. -/
def print_c (c : Nat) (st : State) : Res Unit :=
  (palloc 1 st).bind fun p st1 =>
    Res.ok () { st1 with mem := Store.sb p (c % 256) :: st1.mem }

/-- The function `print_s` of `stdlib.c`: the loop stops at the first NUL. -/
def print_s : List Nat → State → Res Unit
  | [], st => Res.ok () st
  | c :: s, st =>
    if c = 0 then Res.ok () st
    else (print_c c st).bind fun _ st1 => print_s s st1

/-- The function `print_d` of `stdlib.c`: one word store at a fresh pad word. -/
def print_d (d : Nat) (st : State) : Res Unit :=
  (palloc 4 st).bind fun p st1 =>
    Res.ok () { st1 with mem := Store.sw p (d % 2 ^ 32) :: st1.mem }

/-- The body of the `format[i] == '%'` branch of `print_pad`, for the
character `d` that follows the `%`: the three tests on `'c'` (99), `'s'` (115)
and `'d'` (100), each with its `va_arg`. Returns the remaining arguments. -/
def print_directive (d : Nat) (ap : List Arg) (st : State) : Res (List Arg) :=
  if d = 99 then
    match ap with
    | Arg.int v :: ap1 => (print_c v st).bind fun _ st1 => Res.ok ap1 st1
    | _ => Res.undef
  else if d = 115 then
    match ap with
    | Arg.str s :: ap1 => (print_s s st).bind fun _ st1 => Res.ok ap1 st1
    | _ => Res.undef
  else if d = 100 then
    match ap with
    | Arg.int v :: ap1 => (print_d v st).bind fun _ st1 => Res.ok ap1 st1
    | _ => Res.undef
  else Res.ok ap st

/-- The `for` loop of `print_pad`, entered with index `i`. `format[k]` is
`format.getD k 0` for `k ≤ format.length` (the terminator sits at index
`format.length`); an index beyond the terminator is outside the string. -/
def print_pad_loop (format : List Nat) (i : Nat) (ap : List Arg) (st : State) : Res Unit :=
  if format.length < i then Res.undef
  else if hc : format.getD i 0 = 0 then Res.ok () st
  else if format.getD i 0 = 37 then
    (print_directive (format.getD (i + 1) 0) ap st).bind fun ap1 st1 =>
      print_pad_loop format (i + 2) ap1 st1
  else
    (print_c (format.getD i 0) st).bind fun _ st1 =>
      print_pad_loop format (i + 1) ap st1
termination_by format.length + 1 - i
decreasing_by
  all_goals
    have hlt : i < format.length := by
      by_contra hge
      exact hc (List.getD_eq_default _ _ (Nat.le_of_not_lt hge))
    omega

/-- The function `print_pad` of `stdlib.c`. -/
def print_pad (format : List Nat) (ap : List Arg) (st : State) : Res Unit :=
  print_pad_loop format 0 ap st

/-- A run of `print_pad` calls, each with its format string and arguments. -/
def print_pad_seq : List (List Nat × List Arg) → State → Res Unit
  | [], st => Res.ok () st
  | call :: calls, st =>
    (print_pad call.1 call.2 st).bind fun _ st1 => print_pad_seq calls st1

/-- The bytes of a string literal. -/
def cstr (s : String) : List Nat := s.toList.map Char.toNat

/-! ## The Fibonacci benchmark -/

/-- Unsigned 32-bit multiplication (`size_t` and pointer scaling on RV32). -/
def wmul (a b : Nat) : Nat := (a * b) % 2 ^ 32

/-- The body of the loop of `fibonacci` of `fibo.c` at index `i`:
`fibo[i] = fibo[i-1] + fibo[i-2]`, two word loads, a 32-bit addition and a
word store; `fibo` is the address of the table. A load of memory that was
never written has no defined value. -/
def fibonacci_step (fibo i : Nat) (st : State) : Res Unit :=
  match load32 st.mem (wadd fibo (wmul 4 (i - 1))), load32 st.mem (wadd fibo (wmul 4 (i - 2))) with
  | some a, some b =>
    Res.ok () { st with mem := Store.sw (wadd fibo (wmul 4 i)) (wadd a b) :: st.mem }
  | _, _ => Res.undef

/-- The loop `for (i = 2; i < idx; i++)` of `fibonacci`, entered with index `i`. -/
def fibonacci_loop (fibo idx i : Nat) (st : State) : Res Unit :=
  if i < idx then
    (fibonacci_step fibo i st).bind fun _ st1 => fibonacci_loop fibo idx (i + 1) st1
  else Res.ok () st
termination_by idx - i

/-- The function `fibonacci` of `fibo.c`. The argument is an `int`; the size
passed to `malloc` is `idx * sizeof(int)` in `size_t` arithmetic, and the signed
test `i < idx` against the non-negative `i` is the test `i < idx.toNat`. -/
def fibonacci (idx : Int) (st : State) : Res Nat :=
  (malloc ((idx * 4) % 2 ^ 32).toNat st).bind fun fibo st1 =>
    let st2 := { st1 with mem := Store.sw fibo 0 :: st1.mem }
    let st3 := { st2 with mem := Store.sw (wadd fibo 4) 1 :: st2.mem }
    (fibonacci_loop fibo idx.toNat 2 st3).bind fun _ st4 => Res.ok fibo st4

/-! ## Specification-side definitions -/

/-- The requested size rounded up to the next multiple of the word size, as an
unbounded natural number: `size` itself when `size mod 4 = 0`, otherwise
`size + 4 - size mod 4`. -/
def round_up (t : Nat) : Nat := if t % 4 = 0 then t else t + 4 - t % 4

/-- The addresses a run of heap requests is expected to return when the cursor
starts at `c`: each block starts where the previous rounded block ends. -/
def heap_addrs (c : Nat) : List Nat → List Nat
  | [] => []
  | t :: ts => (HEAP_START + c) :: heap_addrs (c + round_up t) ts

/-- The loop of `print_pad` seen from the unread suffix `format[i..]` of the
format string; `print_pad_loop_eq_from` shows that it computes `print_pad_loop`.
A `%` that is the last character makes the index step over the terminator. -/
def print_pad_from : List Nat → List Arg → State → Res Unit
  | [], _, st => Res.ok () st
  | [c], ap, st =>
    if c = 0 then Res.ok () st
    else if c = 37 then (print_directive 0 ap st).bind fun _ _ => Res.undef
    else (print_c c st).bind fun _ st1 => print_pad_from [] ap st1
  | c :: d :: rest, ap, st =>
    if c = 0 then Res.ok () st
    else if c = 37 then
      (print_directive d ap st).bind fun ap1 st1 => print_pad_from rest ap1 st1
    else (print_c c st).bind fun _ st1 => print_pad_from (d :: rest) ap st1

/-- The value operand of a store. -/
def Store.val : Store → Nat
  | Store.sb _ v => v
  | Store.sw _ v => v

/-- The pad cursor rounded up to the next multiple of 4. -/
def up4 (u : Nat) : Nat := u + (4 - u % 4) % 4

/-- A store history (newest first) laid out below the bound `hi`: every store
lies at or above `PAD_START`, is aligned to its own size, holds a value of its
own width, ends at or before `hi`, and all older stores end at or before its
first address. -/
def Laid : List Store → Nat → Prop
  | [], _ => True
  | s :: rest, hi =>
    PAD_START ≤ s.addr ∧ s.addr + s.size ≤ hi ∧ s.addr % s.size = 0 ∧
      s.val < 256 ^ s.size ∧ Laid rest s.addr

/-- The invariant of the pad between two calls of the encoder: the cursor is
within capacity, the residue is the cursor modulo 4, and every store executed
so far lies below the cursor. -/
structure PadInv (st : State) : Prop where
  used_le : st.pad_used ≤ PAD_SIZE
  align_eq : st.pad_align = st.pad_used % 4
  laid : Laid st.mem (PAD_START + st.pad_used)

/-- State `st1` extends `st`: same heap cursor, a pad cursor at least as large,
and a store history that adds only stores at or above the old pad cursor. -/
def Ext (st st1 : State) : Prop :=
  st1.heap_used = st.heap_used ∧ st.pad_used ≤ st1.pad_used ∧
    ∃ new : List Store, st1.mem = new ++ st.mem ∧ ∀ s ∈ new, PAD_START + st.pad_used ≤ s.addr

/-- What a piece of the encoder started in `st` guarantees about its outcome:
after a return the invariant holds again in an extension of `st`; after
`ebreak` the cursor has passed `PAD_SIZE` and the store history, which still
contains that of `st`, lies inside the Pad Region. -/
def Post {α : Type} (st : State) : Res α → Prop
  | Res.ok _ st1 => PadInv st1 ∧ Ext st st1
  | Res.trap st1 =>
    PAD_SIZE < st1.pad_used ∧ Laid st1.mem (PAD_START + PAD_SIZE) ∧
      ∃ new : List Store, st1.mem = new ++ st.mem
  | Res.undef => True

/-- The byte stores `print_s` executes for a text placed at `base`, oldest
first: character `k` goes to address `base + k`. -/
def byte_stores (base : Nat) : List Nat → List Store
  | [] => []
  | c :: s => Store.sb base (c % 256) :: byte_stores (base + 1) s

/-- The alignment residue after `n` one-byte requests, starting from `a`. -/
def residue_after : Nat → Nat → Nat
  | 0, a => a
  | n + 1, a => residue_after n (if a < 3 then wadd a 1 else 0)

/-- Read `n` consecutive bytes of memory starting at address `a`. -/
def read_bytes (mem : List Store) : Nat → Nat → Option (List Nat)
  | _, 0 => some []
  | a, n + 1 =>
    match load8 mem a, read_bytes mem (a + 1) n with
    | some b, some bs => some (b :: bs)
    | _, _ => none

/-- The reader of the pad stream at one directive letter `d`, from pad offset
`u`: one byte for `%c`, `n` bytes for a `%s` whose text length `n` is the next
entry of `lens`, and for `%d` the word at the offset rounded up to a multiple
of 4; any other letter reads nothing. Returns the values read, the remaining
lengths and the offset reached. -/
def read_directive (d : Nat) (lens : List Nat) (mem : List Store) (u : Nat) :
    Option (List Arg × List Nat × Nat) :=
  if d = 99 then
    match load8 mem (PAD_START + u) with
    | some b => some ([Arg.int b], lens, u + 1)
    | none => none
  else if d = 115 then
    match lens with
    | [] => none
    | n :: lens1 =>
      match read_bytes mem (PAD_START + u) n with
      | some bs => some ([Arg.str bs], lens1, u + n)
      | none => none
  else if d = 100 then
    match load32 mem (PAD_START + up4 u) with
    | some w => some ([Arg.int w], lens, up4 u + 4)
    | none => none
  else some ([], lens, u)

/-- The reader of the pad stream for one format string: it replays the
directives of `fmt` from pad offset `u`, skipping one byte for each literal
character and reading each directive with `read_directive`. Returns the values
read and the offset reached. -/
def read_pad_from : List Nat → List Nat → List Store → Nat → Option (List Arg × Nat)
  | [], _, _, u => some ([], u)
  | [c], _, _, u => if c = 0 then some ([], u) else if c = 37 then none else some ([], u + 1)
  | c :: d :: rest, lens, mem, u =>
    if c = 0 then some ([], u)
    else if c = 37 then
      match read_directive d lens mem u with
      | none => none
      | some (v, lens1, u1) =>
        match read_pad_from rest lens1 mem u1 with
        | none => none
        | some (vs, u2) => some (v ++ vs, u2)
    else read_pad_from (d :: rest) lens mem (u + 1)

/-- The reader for a run of calls, each given by its format string and the
lengths of its texts. -/
def read_pad_seq : List (List Nat × List Nat) → List Store → Nat → Option (List (List Arg) × Nat)
  | [], _, u => some ([], u)
  | call :: calls, mem, u =>
    match read_pad_from call.1 call.2 mem u with
    | none => none
    | some (vs, u1) =>
      match read_pad_seq calls mem u1 with
      | none => none
      | some (vss, u2) => some (vs :: vss, u2)

/-- The lengths of the texts among the arguments, in order. -/
def text_lengths : List Arg → List Nat
  | [] => []
  | Arg.int _ :: ap => text_lengths ap
  | Arg.str s :: ap => s.length :: text_lengths ap

/-- The next argument has the type of the directive letter `d`: a character
value below 256 for `%c`, a text of non-NUL bytes for `%s`, a 32-bit value for
`%d`; any other letter takes no argument. Returns the remaining arguments. -/
def directive_fit (d : Nat) (ap : List Arg) : Option (List Arg) :=
  if d = 99 then
    match ap with
    | Arg.int v :: ap1 => if v < 256 then some ap1 else none
    | _ => none
  else if d = 115 then
    match ap with
    | Arg.str s :: ap1 => if ∀ x ∈ s, x ≠ 0 ∧ x < 256 then some ap1 else none
    | _ => none
  else if d = 100 then
    match ap with
    | Arg.int v :: ap1 => if v < 2 ^ 32 then some ap1 else none
    | _ => none
  else some ap

/-- The arguments are exactly those the directives of the format consume, each
of the type of its directive. -/
def args_fit : List Nat → List Arg → Bool
  | [], ap => ap.isEmpty
  | [_], ap => ap.isEmpty
  | c :: d :: rest, ap =>
    if c = 0 then ap.isEmpty
    else if c = 37 then
      match directive_fit d ap with
      | none => false
      | some ap1 => args_fit rest ap1
    else args_fit (d :: rest) ap

/-- The next argument has the type the directive letter `d` takes with `va_arg`:
an `int` for `%c` and `%d`, a text for `%s`; `d` must be one of the three
letters. Returns the remaining arguments. -/
def directive_match (d : Nat) (ap : List Arg) : Option (List Arg) :=
  if d = 99 then
    match ap with
    | Arg.int _ :: ap1 => some ap1
    | _ => none
  else if d = 115 then
    match ap with
    | Arg.str _ :: ap1 => some ap1
    | _ => none
  else if d = 100 then
    match ap with
    | Arg.int _ :: ap1 => some ap1
    | _ => none
  else none

/-- The format contains no NUL, every `%` in it is followed by one of the
directive letters `c`, `s`, `d`, and the arguments are exactly those the
directives consume, each of the type of its directive. -/
def args_match : List Nat → List Arg → Bool
  | [], ap => ap.isEmpty
  | [c], ap => decide (c ≠ 0) && decide (c ≠ 37) && ap.isEmpty
  | c :: d :: rest, ap =>
    if c = 0 then false
    else if c = 37 then
      match directive_match d ap with
      | none => false
      | some ap1 => args_match rest ap1
    else args_match (d :: rest) ap

/-- The control skeleton of the `for` loop of `print_pad`, entered with index
`i`: the list of the indices at which the iterations start, when every loop
body returns; `none` when the index steps past the terminator (the first test,
as in `print_pad_loop`). An iteration at a `%` advances the index by 2, any
other by 1. -/
def scan_loop (format : List Nat) (i : Nat) : Option (List Nat) :=
  if format.length < i then none
  else if hc : format.getD i 0 = 0 then some []
  else if format.getD i 0 = 37 then (scan_loop format (i + 2)).map fun idx => i :: idx
  else (scan_loop format (i + 1)).map fun idx => i :: idx
termination_by format.length + 1 - i
decreasing_by
  all_goals
    have hlt : i < format.length := by
      by_contra hge
      exact hc (List.getD_eq_default _ _ (Nat.le_of_not_lt hge))
    omega

/-- The loop bodies of `print_pad` at the given indices, in order: at a `%` the
directive on the following character, otherwise `print_c` on the character. -/
def run_items (format : List Nat) : List Nat → List Arg → State → Res Unit
  | [], _, st => Res.ok () st
  | i :: idx, ap, st =>
    if format.getD i 0 = 37 then
      (print_directive (format.getD (i + 1) 0) ap st).bind fun ap1 st1 =>
        run_items format idx ap1 st1
    else (print_c (format.getD i 0) st).bind fun _ st1 => run_items format idx ap st1

/-- The iterations starting at the indices `idx` tile the format from index `i`
to its end: each starts where the previous one ended, a `%` takes two
characters and any other character one, all of them inside the string, and the
last one ends at the terminator. -/
def Tiles (format : List Nat) : Nat → List Nat → Prop
  | i, [] => i = format.length
  | i, j :: idx =>
    j = i ∧
      (if format.getD i 0 = 37 then
        i + 1 < format.length ∧ Tiles format (i + 2) idx
      else i < format.length ∧ Tiles format (i + 1) idx)

/-- The Fibonacci values in 32-bit arithmetic: `0`, `1`, and each further value
the sum of the two before it modulo `2^32`. -/
def fib32 : Nat → Nat
  | 0 => 0
  | 1 => 1
  | n + 2 => (fib32 (n + 1) + fib32 n) % 2 ^ 32

/-- The word stores of `fibonacci` for the table entries `0 .. n-1` of the table
at `fibo`, newest first. -/
def fib_hist (fibo : Nat) : Nat → List Store
  | 0 => []
  | n + 1 => Store.sw (wadd fibo (wmul 4 n)) (fib32 n) :: fib_hist fibo n

/-! ## 32-bit arithmetic without wrap-around -/

theorem wadd_small {a b : Nat} (h : a + b < 2 ^ 32) : wadd a b = a + b := by
  unfold wadd; exact Nat.mod_eq_of_lt h

theorem wsub_small {a b : Nat} (hb : b ≤ a) (ha : a < 2 ^ 32) : wsub a b = a - b := by
  unfold wsub
  norm_num at *
  omega

theorem le_round_up (t : Nat) : t ≤ round_up t := by
  unfold round_up; split_ifs <;> omega

theorem round_up_mod (t : Nat) : round_up t % 4 = 0 := by
  unfold round_up; split_ifs <;> omega

theorem round_up_least (t m : Nat) (hm : m % 4 = 0) (ht : t ≤ m) : round_up t ≤ m := by
  unfold round_up; split_ifs <;> omega

/-! ## The heap allocator -/

/-- A request whose rounded size fits below `HEAP_SIZE` returns the block at the
old cursor and advances the cursor by the rounded size. -/
theorem malloc_ok (t : Nat) (st : State) (h : st.heap_used + round_up t ≤ HEAP_SIZE) :
    malloc t st = Res.ok (HEAP_START + st.heap_used)
      { st with heap_used := st.heap_used + round_up t } := by
  have hb : (if t % 4 > 0 then wsub (wadd t 4) (t % 4) else t) = round_up t := by
    unfold round_up at *
    simp only [HEAP_SIZE] at h
    split_ifs at * <;> try omega
    rw [wadd_small (by norm_num; omega), wsub_small (by omega) (by norm_num; omega)]
  unfold malloc
  simp only [hb]
  have h1 : wadd st.heap_used (round_up t) = st.heap_used + round_up t :=
    wadd_small (by simp only [HEAP_SIZE] at h; norm_num; omega)
  rw [h1, if_neg (by omega)]
  rw [wadd_small (by simp only [HEAP_SIZE, HEAP_START] at *; norm_num; omega),
    wsub_small (by omega) (by simp only [HEAP_SIZE, HEAP_START] at *; norm_num; omega)]
  congr 1
  omega

/-- A run whose rounded sizes fit below `HEAP_SIZE` returns for all its requests,
with the addresses of `heap_addrs`. -/
theorem malloc_seq_ok (ts : List Nat) (st : State)
    (h : st.heap_used + (ts.map round_up).sum ≤ HEAP_SIZE) :
    malloc_seq ts st = Res.ok (heap_addrs st.heap_used ts)
      { st with heap_used := st.heap_used + (ts.map round_up).sum } := by
  induction ts generalizing st with
  | nil => simp [malloc_seq, heap_addrs]
  | cons t ts ih =>
    simp only [List.map_cons, List.sum_cons] at h
    have h1 : st.heap_used + round_up t ≤ HEAP_SIZE := by omega
    have h2 := ih { st with heap_used := st.heap_used + round_up t } (by simpa using by omega)
    simp only [malloc_seq, malloc_ok t st h1, Res.bind, h2, heap_addrs, List.map_cons,
      List.sum_cons]
    congr 1
    simp only [State.mk.injEq, and_true, true_and]
    omega

theorem heap_addrs_length (c : Nat) (ts : List Nat) : (heap_addrs c ts).length = ts.length := by
  induction ts generalizing c with
  | nil => rfl
  | cons t ts ih => simp [heap_addrs, ih]

/-- Every expected address lies at or after the starting cursor. -/
theorem heap_addrs_ge (c : Nat) (ts : List Nat) (p : Nat) (hp : p ∈ heap_addrs c ts) :
    HEAP_START + c ≤ p := by
  induction ts generalizing c with
  | nil => simp [heap_addrs] at hp
  | cons t ts ih =>
    simp only [heap_addrs, List.mem_cons] at hp
    rcases hp with rfl | hp
    · exact Nat.le_refl _
    · have := ih _ hp
      omega

/-- Each expected block, rounded, ends at or before the end of the run. -/
theorem heap_addrs_bounds (c : Nat) (ts : List Nat) (i p t : Nat)
    (hp : (heap_addrs c ts)[i]? = some p) (ht : ts[i]? = some t) :
    HEAP_START + c ≤ p ∧ p + round_up t ≤ HEAP_START + c + (ts.map round_up).sum := by
  induction ts generalizing c i with
  | nil => simp at ht
  | cons u ts ih =>
    cases i with
    | zero =>
      simp only [heap_addrs, List.getElem?_cons_zero, Option.some.injEq] at hp ht
      subst hp ht
      simp only [List.map_cons, List.sum_cons]
      omega
    | succ i =>
      simp only [heap_addrs, List.getElem?_cons_succ] at hp ht
      have := ih (c + round_up u) i hp ht
      simp only [List.map_cons, List.sum_cons]
      omega

/-- Expected blocks are laid out in request order: an earlier block, rounded,
ends at or before the start of every later block. -/
theorem heap_addrs_ordered (c : Nat) (ts : List Nat) (i j p t q : Nat) (hij : i < j)
    (hp : (heap_addrs c ts)[i]? = some p) (ht : ts[i]? = some t)
    (hq : (heap_addrs c ts)[j]? = some q) : p + round_up t ≤ q := by
  induction ts generalizing c i j with
  | nil => simp at ht
  | cons u ts ih =>
    cases j with
    | zero => omega
    | succ j =>
      simp only [heap_addrs, List.getElem?_cons_succ] at hq
      cases i with
      | zero =>
        simp only [heap_addrs, List.getElem?_cons_zero, Option.some.injEq] at hp ht
        subst hp ht
        have := heap_addrs_ge _ _ q (List.getElem?_mem hq)
        omega
      | succ i =>
        simp only [heap_addrs, List.getElem?_cons_succ] at hp ht
        exact ih (c + round_up u) i j (by omega) hp ht hq

/-- C1 as stated fails: after a request that fills the heap, a zero-size request
is within the size budget and returns `HEAP_START + HEAP_SIZE = 0x10000`, which
is not an address of the half-open Heap Region `[0x8000, 0x10000)`. -/
theorem malloc_zero_at_full_heap_outside :
    ¬ (∀ ts : List Nat, (ts.map round_up).sum ≤ HEAP_SIZE →
        ∀ ps st, malloc_seq ts State.init = Res.ok ps st →
          ∀ p ∈ ps, HEAP_START ≤ p ∧ p < HEAP_START + HEAP_SIZE) := by
  intro h
  have h1 : malloc_seq [32768, 0] State.init = Res.ok [0x8000, 0x10000] ⟨32768, 0, 0, []⟩ := by
    decide
  have h2 := h [32768, 0] (by decide) _ _ h1 0x10000 (by simp)
  simp only [HEAP_START, HEAP_SIZE] at h2
  omega

/-- C1 (amended): for every run of requests from the initial state whose sizes,
each rounded up to the next multiple of 4 (`round_up`, an unbounded number),
total at most `HEAP_SIZE`, every request returns, each returned address
lies in `[HEAP_START, HEAP_START + HEAP_SIZE]`, strictly below the end whenever
the requested size is positive, and the block `[address, address + size)` lies
inside the Heap Region. -/
theorem malloc_blocks_in_region (ts : List Nat) (h : (ts.map round_up).sum ≤ HEAP_SIZE) :
    ∃ (ps : List Nat) (st : State), malloc_seq ts State.init = Res.ok ps st ∧ ps.length = ts.length ∧
      ∀ (i p t : Nat), ps[i]? = some p → ts[i]? = some t →
        HEAP_START ≤ p ∧ p ≤ HEAP_START + HEAP_SIZE ∧
        (0 < t → p < HEAP_START + HEAP_SIZE) ∧ p + t ≤ HEAP_START + HEAP_SIZE := by
  refine ⟨_, _, malloc_seq_ok ts State.init (by simpa [State.init] using h),
    heap_addrs_length _ _, ?_⟩
  intro i p t hp ht
  have hb := heap_addrs_bounds _ _ i p t hp ht
  have hr := le_round_up t
  simp only [State.init, Nat.add_zero, HEAP_START, HEAP_SIZE] at *
  omega

/-- The amended C1 at the run `[32768, 0]`: a full-heap request followed by a
zero-size request. -/
theorem malloc_blocks_in_region_witness :
    ∃ (ps : List Nat) (st : State), malloc_seq [32768, 0] State.init = Res.ok ps st ∧ ps.length = [32768, 0].length ∧
      ∀ (i p t : Nat), ps[i]? = some p → [32768, 0][i]? = some t →
        HEAP_START ≤ p ∧ p ≤ HEAP_START + HEAP_SIZE ∧
        (0 < t → p < HEAP_START + HEAP_SIZE) ∧ p + t ≤ HEAP_START + HEAP_SIZE :=
  malloc_blocks_in_region [32768, 0] (by decide)

/-- C2: for every run of requests from the initial state whose sizes, each
rounded up to the next multiple of 4 (`round_up`, an unbounded number), total
at most `HEAP_SIZE`, every request returns and no two returned ranges
`[address_i, address_i + size_i)` and `[address_j, address_j + size_j)` with
`i ≠ j` share a byte. -/
theorem malloc_blocks_disjoint (ts : List Nat) (h : (ts.map round_up).sum ≤ HEAP_SIZE) :
    ∃ (ps : List Nat) (st : State), malloc_seq ts State.init = Res.ok ps st ∧ ps.length = ts.length ∧
      ∀ (i j p t q u x : Nat), i ≠ j → ps[i]? = some p → ts[i]? = some t →
        ps[j]? = some q → ts[j]? = some u →
        ¬ (p ≤ x ∧ x < p + t ∧ q ≤ x ∧ x < q + u) := by
  refine ⟨_, _, malloc_seq_ok ts State.init (by simpa [State.init] using h),
    heap_addrs_length _ _, ?_⟩
  intro i j p t q u x hij hp ht hq hu
  have ht1 := le_round_up t
  have hu1 := le_round_up u
  rcases Nat.lt_or_gt_of_ne hij with hlt | hgt
  · have := heap_addrs_ordered _ _ i j p t q hlt hp ht hq
    omega
  · have := heap_addrs_ordered _ _ j i q u p hgt hq hu hp
    omega

/-- C2 at the run `[3, 1, 0, 32760]`, which fills the heap exactly. -/
theorem malloc_blocks_disjoint_witness :
    ∃ (ps : List Nat) (st : State), malloc_seq [3, 1, 0, 32760] State.init = Res.ok ps st ∧
      ps.length = [3, 1, 0, 32760].length ∧
      ∀ (i j p t q u x : Nat), i ≠ j → ps[i]? = some p → [3, 1, 0, 32760][i]? = some t →
        ps[j]? = some q → [3, 1, 0, 32760][j]? = some u →
        ¬ (p ≤ x ∧ x < p + t ∧ q ≤ x ∧ x < q + u) :=
  malloc_blocks_disjoint [3, 1, 0, 32760] (by decide)

/-- Without 32-bit wrap-around the capacity test of `malloc` is exact: the call
executes `ebreak` exactly when the old cursor plus the rounded size exceeds
`HEAP_SIZE`. -/
theorem malloc_trap_iff_no_wrap (t : Nat) (st : State)
    (h : st.heap_used + round_up t < 2 ^ 32) :
    (∃ st1, malloc t st = Res.trap st1) ↔ HEAP_SIZE < st.heap_used + round_up t := by
  constructor
  · rintro ⟨st1, h1⟩
    by_contra hle
    rw [malloc_ok t st (by omega)] at h1
    cases h1
  · intro hgt
    have hr := le_round_up t
    have hb : (if t % 4 > 0 then wsub (wadd t 4) (t % 4) else t) = round_up t := by
      unfold round_up at *
      split_ifs at * <;> try omega
      rw [wadd_small (by norm_num at *; omega), wsub_small (by omega) (by norm_num at *; omega)]
    unfold malloc
    simp only [hb, wadd_small h]
    rw [if_pos hgt]
    exact ⟨_, rfl⟩

/-- C5, the code at the failing input: with the cursor at 8 (after `malloc(8)`),
`malloc(0xFFFFFFFC)` does not execute `ebreak` although `8 + 0xFFFFFFFC` exceeds
`HEAP_SIZE`; the 32-bit sum wraps to 4, the call returns `0x8008` and moves the
cursor back to 4, and the next `malloc(4)` returns `0x8004`, inside the first
block. -/
theorem malloc_wraps_past_capacity_check :
    malloc 0xFFFFFFFC ⟨8, 0, 0, []⟩ = Res.ok 0x8008 ⟨4, 0, 0, []⟩ ∧
    HEAP_SIZE < 8 + round_up 0xFFFFFFFC ∧
    malloc_seq [8, 0xFFFFFFFC, 4] State.init
      = Res.ok [0x8000, 0x8008, 0x8004] ⟨8, 0, 0, []⟩ := by
  decide

/-- C8, the code at the failing input: `malloc(0xFFFFFFFF)` in the initial state
does not execute `ebreak`, returns `HEAP_START` and leaves the cursor at 0,
while the smallest multiple of 4 that is at least `0xFFFFFFFF` is `2^32`; the
rounded size wraps to 0 in 32-bit arithmetic. -/
theorem malloc_rounding_wraps_to_zero :
    malloc 0xFFFFFFFF State.init = Res.ok HEAP_START State.init ∧
    round_up 0xFFFFFFFF = 2 ^ 32 := by
  decide

/-- The scenario of C8: `malloc(3)` followed by `malloc(1)` returns a second
address exactly 4 bytes after the first. -/
theorem malloc_three_then_one :
    malloc_seq [3, 1] State.init = Res.ok [HEAP_START, HEAP_START + 4] ⟨8, 0, 0, []⟩ := by
  decide

/-! ## The pad allocator at the two sizes the encoder requests -/

theorem wsub_four_one : wsub 4 1 = 3 := by decide

theorem wsub_four_four : wsub 4 4 = 0 := by decide

theorem up4_mod (u : Nat) : up4 u % 4 = 0 := by unfold up4; omega

theorem up4_ge (u : Nat) : u ≤ up4 u := by unfold up4; omega

theorem up4_le (u : Nat) : up4 u ≤ u + 3 := by unfold up4; omega

/-- A one-byte request: no alignment padding; the block is the byte at the old
cursor. -/
theorem palloc_one (st : State) (hu : st.pad_used ≤ PAD_SIZE) :
    palloc 1 st =
      if PAD_SIZE < st.pad_used + 1 then Res.trap { st with pad_used := st.pad_used + 1 }
      else Res.ok (PAD_START + st.pad_used)
        { st with pad_used := st.pad_used + 1,
                  pad_align := if st.pad_align < 3 then wadd st.pad_align 1 else 0 } := by
  have h1 : wadd st.pad_used 1 = st.pad_used + 1 :=
    wadd_small (by simp only [PAD_SIZE] at hu; norm_num; omega)
  have h0 : ¬ (1 ≥ 4 ∧ st.pad_align > 0) := by omega
  have h2 : wsub (wadd PAD_START (st.pad_used + 1)) 1 = PAD_START + st.pad_used := by
    simp only [PAD_SIZE, PAD_START] at *
    rw [wadd_small (by norm_num; omega), wsub_small (by omega) (by norm_num; omega)]
    omega
  simp only [palloc, h1, if_neg h0, wsub_four_one, h2, gt_iff_lt]

/-- A word request when the residue is the cursor modulo 4: the block is the
word at the cursor rounded up to a multiple of 4. -/
theorem palloc_four (st : State) (hu : st.pad_used ≤ PAD_SIZE)
    (ha : st.pad_align = st.pad_used % 4) :
    palloc 4 st =
      if PAD_SIZE < up4 st.pad_used + 4 then Res.trap { st with pad_used := up4 st.pad_used + 4 }
      else Res.ok (PAD_START + up4 st.pad_used)
        { st with pad_used := up4 st.pad_used + 4, pad_align := 0 } := by
  have h1 : wadd st.pad_used 4 = st.pad_used + 4 :=
    wadd_small (by simp only [PAD_SIZE] at hu; norm_num; omega)
  have h3 : (if 4 ≥ 4 ∧ st.pad_align > 0 then wadd (st.pad_used + 4) (wsub 4 st.pad_align)
      else st.pad_used + 4) = up4 st.pad_used + 4 := by
    simp only [PAD_SIZE] at hu
    unfold up4
    split_ifs with h
    · rw [wsub_small (by omega) (by norm_num), wadd_small (by norm_num; omega)]
      omega
    · omega
  have h4 := up4_le st.pad_used
  have h2 : wsub (wadd PAD_START (up4 st.pad_used + 4)) 4 = PAD_START + up4 st.pad_used := by
    simp only [PAD_SIZE, PAD_START] at *
    rw [wadd_small (by norm_num; omega), wsub_small (by omega) (by norm_num; omega)]
    omega
  have h5 : ¬ st.pad_align < 0 := by omega
  simp only [palloc, h1, h3, wsub_four_four, h2, gt_iff_lt, if_neg h5]


/-! ## The pad invariant -/

theorem Laid.mono {mem : List Store} {hi hi1 : Nat} (h : Laid mem hi) (hle : hi ≤ hi1) :
    Laid mem hi1 := by
  cases mem with
  | nil => trivial
  | cons s rest =>
    obtain ⟨h1, h2, h3, h4, h5⟩ := h
    exact ⟨h1, Nat.le_trans h2 hle, h3, h4, h5⟩

/-- Every store of a laid-out history lies in `[PAD_START, hi)`, aligned to its
size, with a value of its width. -/
theorem Laid.of_mem {mem : List Store} {hi : Nat} (h : Laid mem hi) {s : Store} (hs : s ∈ mem) :
    PAD_START ≤ s.addr ∧ s.addr + s.size ≤ hi ∧ s.addr % s.size = 0 ∧ s.val < 256 ^ s.size := by
  induction mem generalizing hi with
  | nil => simp at hs
  | cons s1 rest ih =>
    obtain ⟨h1, h2, h3, h4, h5⟩ := h
    rcases List.mem_cons.mp hs with rfl | hs1
    · exact ⟨h1, h2, h3, h4⟩
    · have := ih h5 hs1
      have hsz : 0 < s1.size := by cases s1 <;> simp [Store.size]
      exact ⟨this.1, by omega, this.2.2⟩

theorem Ext.refl (st : State) : Ext st st :=
  ⟨rfl, Nat.le_refl _, [], rfl, by simp⟩

theorem Ext.trans {a b c : State} (h1 : Ext a b) (h2 : Ext b c) : Ext a c := by
  obtain ⟨e1, l1, n1, m1, b1⟩ := h1
  obtain ⟨e2, l2, n2, m2, b2⟩ := h2
  refine ⟨e2.trans e1, Nat.le_trans l1 l2, n2 ++ n1, by rw [m2, m1, List.append_assoc], ?_⟩
  intro s hs
  rcases List.mem_append.mp hs with h | h
  · have := b2 s h
    omega
  · exact b1 s h

theorem Post.weaken {α : Type} {a b : State} {r : Res α} (h1 : Ext a b) (h2 : Post b r) :
    Post a r := by
  cases r with
  | ok x st1 => exact ⟨h2.1, h1.trans h2.2⟩
  | trap st1 =>
    obtain ⟨_, _, n1, m1, _⟩ := h1
    obtain ⟨g, l, n2, m2⟩ := h2
    exact ⟨g, l, n2 ++ n1, by rw [m2, m1, List.append_assoc]⟩
  | undef => trivial

theorem Post.bind {α β : Type} {st : State} {r : Res α} {f : α → State → Res β}
    (hr : Post st r) (hf : ∀ a st1, PadInv st1 → Ext st st1 → Post st1 (f a st1)) :
    Post st (r.bind f) := by
  cases r with
  | ok x st1 => exact Post.weaken hr.2 (hf x st1 hr.1 hr.2)
  | trap st1 => exact hr
  | undef => trivial

theorem post_print_c (c : Nat) (st : State) (h : PadInv st) : Post st (print_c c st) := by
  obtain ⟨hu, ha, hl⟩ := h
  unfold print_c
  rw [palloc_one st hu]
  by_cases hfull : PAD_SIZE < st.pad_used + 1
  · rw [if_pos hfull]
    exact ⟨hfull, hl.mono (by omega), [], rfl⟩
  · rw [if_neg hfull]
    refine ⟨⟨?_, ?_, ?_⟩, rfl, ?_, [Store.sb (PAD_START + st.pad_used) (c % 256)], rfl, ?_⟩
    · show st.pad_used + 1 ≤ PAD_SIZE
      omega
    · show (if st.pad_align < 3 then wadd st.pad_align 1 else 0) = (st.pad_used + 1) % 4
      rw [ha]
      split_ifs with h3
      · rw [wadd_small (by norm_num; omega)]; omega
      · omega
    · show Laid (Store.sb (PAD_START + st.pad_used) (c % 256) :: st.mem)
        (PAD_START + (st.pad_used + 1))
      refine ⟨?_, ?_, ?_, ?_, hl⟩
      · show PAD_START ≤ PAD_START + st.pad_used
        omega
      · show PAD_START + st.pad_used + 1 ≤ PAD_START + (st.pad_used + 1)
        omega
      · show (PAD_START + st.pad_used) % 1 = 0
        omega
      · show c % 256 < 256 ^ 1
        omega
    · show st.pad_used ≤ st.pad_used + 1
      omega
    · intro s hs
      simp only [List.mem_singleton] at hs
      subst hs
      exact Nat.le_refl _

theorem post_print_d (d : Nat) (st : State) (h : PadInv st) : Post st (print_d d st) := by
  obtain ⟨hu, ha, hl⟩ := h
  have hge := up4_ge st.pad_used
  have hmod := up4_mod st.pad_used
  unfold print_d
  rw [palloc_four st hu ha]
  by_cases hfull : PAD_SIZE < up4 st.pad_used + 4
  · rw [if_pos hfull]
    exact ⟨hfull, hl.mono (by omega), [], rfl⟩
  · rw [if_neg hfull]
    refine ⟨⟨?_, ?_, ?_⟩, rfl, ?_, [Store.sw (PAD_START + up4 st.pad_used) (d % 2 ^ 32)], rfl, ?_⟩
    · show up4 st.pad_used + 4 ≤ PAD_SIZE
      omega
    · show 0 = (up4 st.pad_used + 4) % 4
      omega
    · show Laid (Store.sw (PAD_START + up4 st.pad_used) (d % 2 ^ 32) :: st.mem)
        (PAD_START + (up4 st.pad_used + 4))
      refine ⟨?_, ?_, ?_, ?_, hl.mono ?_⟩
      · show PAD_START ≤ PAD_START + up4 st.pad_used
        omega
      · show PAD_START + up4 st.pad_used + 4 ≤ PAD_START + (up4 st.pad_used + 4)
        omega
      · show (PAD_START + up4 st.pad_used) % 4 = 0
        simp only [PAD_START]; omega
      · show d % 2 ^ 32 < 256 ^ 4
        norm_num
        omega
      · show PAD_START + st.pad_used ≤ PAD_START + up4 st.pad_used
        omega
    · show st.pad_used ≤ up4 st.pad_used + 4
      omega
    · intro s hs
      simp only [List.mem_singleton] at hs
      subst hs
      show PAD_START + st.pad_used ≤ PAD_START + up4 st.pad_used
      omega

theorem post_print_s (s : List Nat) (st : State) (h : PadInv st) : Post st (print_s s st) := by
  induction s generalizing st with
  | nil => exact ⟨h, Ext.refl st⟩
  | cons c s ih =>
    unfold print_s
    split_ifs with hc
    · exact ⟨h, Ext.refl st⟩
    · exact Post.bind (post_print_c c st h) fun _ st1 h1 _ => ih st1 h1

theorem post_print_directive (d : Nat) (ap : List Arg) (st : State) (h : PadInv st) :
    Post st (print_directive d ap st) := by
  unfold print_directive
  split_ifs
  · split
    · exact Post.bind (post_print_c _ st h) fun _ st1 h1 _ => ⟨h1, Ext.refl st1⟩
    · trivial
  · split
    · exact Post.bind (post_print_s _ st h) fun _ st1 h1 _ => ⟨h1, Ext.refl st1⟩
    · trivial
  · split
    · exact Post.bind (post_print_d _ st h) fun _ st1 h1 _ => ⟨h1, Ext.refl st1⟩
    · trivial
  · exact ⟨h, Ext.refl st⟩

theorem post_print_pad_from (n : Nat) : ∀ (fmt : List Nat), fmt.length ≤ n →
    ∀ (ap : List Arg) (st : State), PadInv st → Post st (print_pad_from fmt ap st) := by
  induction n with
  | zero =>
    intro fmt hlen ap st h
    match fmt, hlen with
    | [], _ => exact ⟨h, Ext.refl st⟩
  | succ n ih =>
    intro fmt hlen ap st h
    match fmt, hlen with
    | [], _ => exact ⟨h, Ext.refl st⟩
    | [c], _ =>
      unfold print_pad_from
      split_ifs
      · exact ⟨h, Ext.refl st⟩
      · exact Post.bind (post_print_directive _ _ st h) fun _ _ _ _ => trivial
      · exact Post.bind (post_print_c _ st h) fun _ st1 h1 _ => ih [] (by simp) ap st1 h1
    | c :: d :: rest, hlen =>
      unfold print_pad_from
      simp only [List.length_cons] at hlen
      split_ifs
      · exact ⟨h, Ext.refl st⟩
      · exact Post.bind (post_print_directive _ _ st h) fun ap1 st1 h1 _ =>
          ih rest (by omega) ap1 st1 h1
      · exact Post.bind (post_print_c _ st h) fun _ st1 h1 _ =>
          ih (d :: rest) (by simp only [List.length_cons]; omega) ap st1 h1

/-! ## The index loop and its suffix view -/

theorem print_directive_zero (ap : List Arg) (st : State) :
    print_directive 0 ap st = Res.ok ap st := by
  simp [print_directive]

/-- Past the terminator the loop has left the string. -/
theorem print_pad_loop_past (format : List Nat) (i : Nat) (ap : List Arg) (st : State)
    (h : format.length < i) : print_pad_loop format i ap st = Res.undef := by
  rw [print_pad_loop, if_pos h]

/-- The index loop entered at `i` computes the suffix view on `format[i..]`. -/
theorem print_pad_loop_eq_from (format : List Nat) (n : Nat) :
    ∀ (i : Nat), format.length - i ≤ n → i ≤ format.length →
      ∀ (ap : List Arg) (st : State),
        print_pad_loop format i ap st = print_pad_from (format.drop i) ap st := by
  induction n using Nat.strong_induction_on with
  | _ n ih =>
    intro i hn hi ap st
    rw [print_pad_loop, if_neg (by omega)]
    rcases Nat.eq_or_lt_of_le hi with heq | hlt
    · subst heq
      simp [List.getD_eq_default, print_pad_from]
    · rw [List.drop_eq_getElem_cons hlt, List.getD_eq_getElem _ _ hlt]
      rcases Nat.eq_or_lt_of_le (Nat.succ_le_of_lt hlt) with heq1 | hlt1
      · have hd : List.drop (i + 1) format = [] := List.drop_of_length_le (by omega)
        rw [hd, List.getD_eq_default _ _ (by omega)]
        simp only [print_pad_from, print_directive_zero, Res.bind]
        by_cases h0 : format[i] = 0
        · simp [h0]
        · by_cases h37 : format[i] = 37
          · rw [dif_neg h0, if_neg h0, if_pos h37, if_pos h37]
            exact print_pad_loop_past _ _ _ _ (by omega)
          · rw [dif_neg h0, if_neg h0, if_neg h37, if_neg h37]
            congr 1
            funext _ st1
            rw [ih 0 (by omega) (i + 1) (by omega) (by omega)]
            rw [hd, print_pad_from]
      · have hlt2 : i + 1 < format.length := hlt1
        rw [List.drop_eq_getElem_cons hlt2, List.getD_eq_getElem _ _ hlt2]
        simp only [print_pad_from]
        by_cases h0 : format[i] = 0
        · simp [h0]
        · by_cases h37 : format[i] = 37
          · rw [dif_neg h0, if_neg h0, if_pos h37, if_pos h37]
            congr 1
            funext ap1 st1
            exact ih (format.length - (i + 2)) (by omega) (i + 2) (Nat.le_refl _) (by omega) ap1 st1
          · rw [dif_neg h0, if_neg h0, if_neg h37, if_neg h37]
            congr 1
            funext _ st1
            rw [ih (format.length - (i + 1)) (by omega) (i + 1) (Nat.le_refl _) (by omega),
              List.drop_eq_getElem_cons hlt2]

/-- The function `print_pad` computes the suffix view on the whole format. -/
theorem print_pad_eq_from (format : List Nat) (ap : List Arg) (st : State) :
    print_pad format ap st = print_pad_from format ap st := by
  unfold print_pad
  rw [print_pad_loop_eq_from format format.length 0 (by omega) (by omega)]
  rfl


/-! ## Runs of the encoder keep the invariant -/

theorem padInv_init : PadInv State.init :=
  ⟨by simp [State.init], by simp [State.init], trivial⟩

theorem post_print_pad (format : List Nat) (ap : List Arg) (st : State) (h : PadInv st) :
    Post st (print_pad format ap st) := by
  rw [print_pad_eq_from]
  exact post_print_pad_from format.length format (Nat.le_refl _) ap st h

theorem post_print_pad_seq (calls : List (List Nat × List Arg)) (st : State) (h : PadInv st) :
    Post st (print_pad_seq calls st) := by
  induction calls generalizing st with
  | nil => exact ⟨h, Ext.refl st⟩
  | cons call calls ih =>
    unfold print_pad_seq
    exact Post.bind (post_print_pad _ _ st h) fun _ st1 h1 _ => ih st1 h1

/-! ## Reading the store history back -/

theorem Store.byteAt_range {s : Store} {x b : Nat} (h : s.byteAt x = some b) :
    s.addr ≤ x ∧ x < s.addr + s.size := by
  cases s with
  | sb a v =>
    simp only [Store.byteAt] at h
    split_ifs at h with hx
    simp only [Store.addr, Store.size]
    omega
  | sw a v =>
    simp only [Store.byteAt] at h
    split_ifs at h with hx
    simp only [Store.addr, Store.size]
    omega

theorem Store.byteAt_none_of_lt {s : Store} {x : Nat} (h : x < s.addr) : s.byteAt x = none := by
  cases s with
  | sb a v =>
    simp only [Store.addr] at h
    simp only [Store.byteAt]
    rw [if_neg (by omega)]
  | sw a v =>
    simp only [Store.addr] at h
    simp only [Store.byteAt]
    rw [if_neg (by omega)]

/-- In a laid-out history no store is overwritten: the byte a store left at an
address is the byte memory holds there. -/
theorem load8_of_laid {mem : List Store} {hi : Nat} (h : Laid mem hi) {s : Store} (hs : s ∈ mem)
    {x b : Nat} (hb : s.byteAt x = some b) : load8 mem x = some b := by
  induction mem generalizing hi with
  | nil => simp at hs
  | cons s1 rest ih =>
    obtain ⟨_, _, _, _, h5⟩ := h
    rcases List.mem_cons.mp hs with rfl | hs1
    · simp only [load8, hb]
    · have hr := Store.byteAt_range hb
      have hle := (Laid.of_mem h5 hs1).2.1
      simp only [load8, Store.byteAt_none_of_lt (show x < s1.addr by omega)]
      exact ih h5 hs1

theorem load8_sb_of_laid {mem : List Store} {hi : Nat} (h : Laid mem hi) {a v : Nat}
    (hs : Store.sb a v ∈ mem) : load8 mem a = some v := by
  have hv : v < 256 := by simpa [Store.val, Store.size] using (Laid.of_mem h hs).2.2.2
  have hb : (Store.sb a v).byteAt a = some v := by
    simp only [Store.byteAt, if_true, Nat.mod_eq_of_lt hv]
  exact load8_of_laid h hs hb

theorem load32_sw_of_laid {mem : List Store} {hi : Nat} (h : Laid mem hi) {a v : Nat}
    (hs : Store.sw a v ∈ mem) : load32 mem a = some v := by
  have hv : v < 2 ^ 32 := by
    have := (Laid.of_mem h hs).2.2.2
    simp only [Store.val, Store.size] at this
    norm_num at this ⊢
    exact this
  have hb : ∀ k, k < 4 → load8 mem (a + k) = some (v / 256 ^ k % 256) := by
    intro k hk
    apply load8_of_laid h hs
    simp only [Store.byteAt]
    rw [if_pos (by omega), Nat.add_sub_cancel_left]
  have h0 := hb 0 (by norm_num)
  have h1 := hb 1 (by norm_num)
  have h2 := hb 2 (by norm_num)
  have h3 := hb 3 (by norm_num)
  simp only [Nat.add_zero] at h0
  simp only [load32, h0, h1, h2, h3, Option.some.injEq]
  norm_num at hv ⊢
  omega


theorem Res.bind_assoc {α β γ : Type} (r : Res α) (f : α → State → Res β)
    (g : β → State → Res γ) :
    (r.bind f).bind g = r.bind fun a st => (f a st).bind g := by
  cases r <;> rfl

/-- Running two lists of calls one after the other is running the first and,
if it returns, the second. -/
theorem print_pad_seq_append (calls later : List (List Nat × List Arg)) (st : State) :
    print_pad_seq (calls ++ later) st
      = (print_pad_seq calls st).bind fun _ st1 => print_pad_seq later st1 := by
  induction calls generalizing st with
  | nil => rfl
  | cons call calls ih =>
    simp only [List.cons_append, print_pad_seq, Res.bind_assoc]
    congr 1
    funext _ st1
    exact ih st1

/-- C3: after every run of `print_pad` calls from the initial pad state that
returns, every word store in the history (the store of a `%d` directive, the
only word store of the encoder) is at an address that is a multiple of 4. -/
theorem print_d_word_aligned (calls : List (List Nat × List Arg)) (st : State)
    (h : print_pad_seq calls State.init = Res.ok () st) :
    ∀ a v, Store.sw a v ∈ st.mem → a % 4 = 0 := by
  have hp := post_print_pad_seq calls State.init padInv_init
  rw [h] at hp
  intro a v hs
  exact (Laid.of_mem hp.1.laid hs).2.2.1

/-- C3 at its scenario: after `print_pad("%s", "AB")` has stored 'A' and 'B' at
pad offsets 0 and 1, `print_pad("%d", 7)` stores the word 7 at pad offset 4 and
leaves the cursor at 8. -/
theorem print_d_word_aligned_witness :
    print_pad_seq [(cstr "%s", [Arg.str (cstr "AB")]), (cstr "%d", [Arg.int 7])] State.init
      = Res.ok () ⟨0, 8, 0,
          [Store.sw (PAD_START + 4) 7, Store.sb (PAD_START + 1) 66, Store.sb PAD_START 65]⟩ ∧
    ∀ a v, Store.sw a v ∈
        [Store.sw (PAD_START + 4) 7, Store.sb (PAD_START + 1) 66, Store.sb PAD_START 65] →
      a % 4 = 0 := by
  have h : print_pad_seq [(cstr "%s", [Arg.str (cstr "AB")]), (cstr "%d", [Arg.int 7])]
      State.init = Res.ok () ⟨0, 8, 0,
        [Store.sw (PAD_START + 4) 7, Store.sb (PAD_START + 1) 66, Store.sb PAD_START 65]⟩ := by
    simp only [print_pad_seq, print_pad_eq_from]
    decide
  exact ⟨h, print_d_word_aligned _ _ h⟩

/-- C10: after every run of `print_pad` calls from the initial pad state that
returns, every store of the history can still be read back: the word at the
address of each word store holds the stored value and the byte at the address
of each byte store holds the stored byte. The stores are those of the
directives: `print_d d` stores `d mod 2^32` as one word at the address `palloc`
returned, and `print_c c` stores `c mod 256` at the address `palloc` returned. -/
theorem emitted_values_persist (calls : List (List Nat × List Arg)) (st : State)
    (h : print_pad_seq calls State.init = Res.ok () st) :
    (∀ a v, Store.sw a v ∈ st.mem → load32 st.mem a = some v) ∧
    (∀ a v, Store.sb a v ∈ st.mem → load8 st.mem a = some v) ∧
    (∀ d s0 s1, print_d d s0 = Res.ok () s1 →
      ∃ p s, palloc 4 s0 = Res.ok p s ∧ s1.mem = Store.sw p (d % 2 ^ 32) :: s0.mem) ∧
    (∀ c s0 s1, print_c c s0 = Res.ok () s1 →
      ∃ p s, palloc 1 s0 = Res.ok p s ∧ s1.mem = Store.sb p (c % 256) :: s0.mem) := by
  have hp := post_print_pad_seq calls State.init padInv_init
  rw [h] at hp
  refine ⟨fun a v hs => load32_sw_of_laid hp.1.laid hs,
    fun a v hs => load8_sb_of_laid hp.1.laid hs, ?_, ?_⟩
  · intro d s0 s1 h1
    unfold print_d at h1
    cases hpa : palloc 4 s0 with
    | ok p s =>
      rw [hpa] at h1
      simp only [Res.bind, Res.ok.injEq, true_and] at h1
      refine ⟨p, s, rfl, ?_⟩
      rw [← h1]
      have : s.mem = s0.mem := by
        unfold palloc at hpa
        simp only at hpa
        split_ifs at hpa <;> simp only [Res.ok.injEq] at hpa <;> rw [← hpa.2]
      simp [this]
    | trap s => rw [hpa] at h1; simp [Res.bind] at h1
    | undef => rw [hpa] at h1; simp [Res.bind] at h1
  · intro c s0 s1 h1
    unfold print_c at h1
    cases hpa : palloc 1 s0 with
    | ok p s =>
      rw [hpa] at h1
      simp only [Res.bind, Res.ok.injEq, true_and] at h1
      refine ⟨p, s, rfl, ?_⟩
      rw [← h1]
      have : s.mem = s0.mem := by
        unfold palloc at hpa
        simp only at hpa
        split_ifs at hpa <;> simp only [Res.ok.injEq] at hpa <;> rw [← hpa.2]
      simp [this]
    | trap s => rw [hpa] at h1; simp [Res.bind] at h1
    | undef => rw [hpa] at h1; simp [Res.bind] at h1


/-- C10 at its scenario: `print_pad("%d", 5)` on an empty Pad Region executes
exactly one store, the word 5 at `PAD_START`, and leaves the cursor at 4; the
word read back at `PAD_START` is 5. -/
theorem emitted_values_persist_witness :
    print_pad_seq [(cstr "%d", [Arg.int 5])] State.init
      = Res.ok () ⟨0, 4, 0, [Store.sw PAD_START 5]⟩ ∧
    load32 [Store.sw PAD_START 5] PAD_START = some 5 := by
  have h : print_pad_seq [(cstr "%d", [Arg.int 5])] State.init
      = Res.ok () ⟨0, 4, 0, [Store.sw PAD_START 5]⟩ := by
    simp only [print_pad_seq, print_pad_eq_from]
    decide
  exact ⟨h, (emitted_values_persist _ _ h).1 PAD_START 5 (by simp)⟩

theorem palloc_mem (t : Nat) (s0 : State) :
    (∀ p s1, palloc t s0 = Res.ok p s1 → s1.mem = s0.mem) ∧
    (∀ s1, palloc t s0 = Res.trap s1 → s1.mem = s0.mem) := by
  unfold palloc
  simp only
  constructor
  · intro p s1 h
    split_ifs at h <;> simp only [Res.ok.injEq] at h <;> rw [← h.2]
  · intro s1 h
    split_ifs at h <;> simp only [Res.trap.injEq] at h <;> rw [← h]

/-- C7: when a run of `print_pad` calls from the initial pad state ends in
`ebreak`, the pad cursor has been pushed past `PAD_SIZE`, every store executed
lies inside the Pad Region and can still be read back as written, and no later
call has any effect. The allocation that halts stores nothing: when `palloc`
executes `ebreak`, `print_c` and `print_d` halt in that same state, whose store
history is the one before the call. A request that would push the cursor past
`PAD_SIZE` (alignment padding included) does execute `ebreak`. -/
theorem pad_overrun_halts (calls : List (List Nat × List Arg)) (st : State)
    (h : print_pad_seq calls State.init = Res.trap st) :
    PAD_SIZE < st.pad_used ∧
    (∀ s ∈ st.mem, PAD_START ≤ s.addr ∧ s.addr + s.size ≤ PAD_START + PAD_SIZE) ∧
    (∀ a v, Store.sw a v ∈ st.mem → load32 st.mem a = some v) ∧
    (∀ a v, Store.sb a v ∈ st.mem → load8 st.mem a = some v) ∧
    (∀ later, print_pad_seq (calls ++ later) State.init = Res.trap st) ∧
    (∀ c s0 s1, palloc 1 s0 = Res.trap s1 → print_c c s0 = Res.trap s1 ∧ s1.mem = s0.mem) ∧
    (∀ d s0 s1, palloc 4 s0 = Res.trap s1 → print_d d s0 = Res.trap s1 ∧ s1.mem = s0.mem) ∧
    (∀ s0 : State, s0.pad_used ≤ PAD_SIZE → PAD_SIZE < s0.pad_used + 1 →
      palloc 1 s0 = Res.trap { s0 with pad_used := s0.pad_used + 1 }) ∧
    (∀ s0 : State, s0.pad_used ≤ PAD_SIZE → s0.pad_align = s0.pad_used % 4 →
      PAD_SIZE < up4 s0.pad_used + 4 →
      palloc 4 s0 = Res.trap { s0 with pad_used := up4 s0.pad_used + 4 }) := by
  have hp := post_print_pad_seq calls State.init padInv_init
  rw [h] at hp
  obtain ⟨hgt, hl, _⟩ := hp
  refine ⟨hgt, fun s hs => ⟨(Laid.of_mem hl hs).1, (Laid.of_mem hl hs).2.1⟩,
    fun a v hs => load32_sw_of_laid hl hs, fun a v hs => load8_sb_of_laid hl hs, ?_, ?_, ?_, ?_, ?_⟩
  · intro later
    rw [print_pad_seq_append, h]
    rfl
  · intro c s0 s1 h1
    refine ⟨?_, (palloc_mem 1 s0).2 s1 h1⟩
    unfold print_c
    rw [h1]
    rfl
  · intro d s0 s1 h1
    refine ⟨?_, (palloc_mem 4 s0).2 s1 h1⟩
    unfold print_d
    rw [h1]
    rfl
  · intro s0 hu hfull
    rw [palloc_one s0 hu, if_pos hfull]
  · intro s0 hu ha hfull
    rw [palloc_four s0 hu ha, if_pos hfull]

/-! ## Emitting a text -/

theorem cstr_pct_s : cstr "%s" = [37, 115] := by decide

theorem cstr_pct_c : cstr "%c" = [37, 99] := by decide

theorem cstr_pct_d : cstr "%d" = [37, 100] := by decide

/-- The format `"%s"` runs `print_s` on its argument. -/
theorem print_pad_pct_s (s : List Nat) (st : State) :
    print_pad [37, 115] [Arg.str s] st = print_s s st := by
  rw [print_pad_eq_from]
  simp only [print_pad_from, print_directive]
  norm_num
  cases print_s s st <;> rfl

/-- The format `"%c"` runs `print_c` on its argument. -/
theorem print_pad_pct_c (v : Nat) (st : State) :
    print_pad [37, 99] [Arg.int v] st = print_c v st := by
  rw [print_pad_eq_from]
  simp only [print_pad_from, print_directive]
  norm_num
  cases print_c v st <;> rfl

/-- A text without NUL that fits below `PAD_SIZE` is stored byte by byte from the
cursor on, whatever the residue. -/
theorem print_s_ok (s : List Nat) (st : State) (hs : ∀ c ∈ s, c ≠ 0)
    (hfit : st.pad_used + s.length ≤ PAD_SIZE) :
    print_s s st = Res.ok ()
      ⟨st.heap_used, st.pad_used + s.length, residue_after s.length st.pad_align,
        (byte_stores (PAD_START + st.pad_used) s).reverse ++ st.mem⟩ := by
  induction s generalizing st with
  | nil => simp [print_s, byte_stores, residue_after]
  | cons c s ih =>
    simp only [List.length_cons] at hfit
    have hc : c ≠ 0 := hs c (List.mem_cons_self _ _)
    have hu : st.pad_used ≤ PAD_SIZE := by omega
    rw [print_s, if_neg hc, print_c, palloc_one st hu, if_neg (by omega)]
    simp only [Res.bind]
    rw [ih _ (fun x hx => hs x (List.mem_cons_of_mem _ hx)) (by simp only; omega)]
    simp only [byte_stores, residue_after, List.reverse_cons, List.append_assoc,
      List.singleton_append, List.length_cons, Res.ok.injEq, State.mk.injEq, true_and, and_true]
    constructor
    · omega
    · rw [Nat.add_assoc]

theorem byte_stores_length (base : Nat) (s : List Nat) :
    (byte_stores base s).length = s.length := by
  induction s generalizing base with
  | nil => rfl
  | cons c s ih => simp [byte_stores, ih]

theorem byte_stores_getElem? (base : Nat) (s : List Nat) (k c : Nat) (h : s[k]? = some c) :
    (byte_stores base s)[k]? = some (Store.sb (base + k) (c % 256)) := by
  induction s generalizing base k with
  | nil => simp at h
  | cons d s ih =>
    cases k with
    | zero =>
      simp only [List.getElem?_cons_zero, Option.some.injEq] at h
      simp [byte_stores, h]
    | succ k =>
      simp only [List.getElem?_cons_succ] at h
      simp only [byte_stores, List.getElem?_cons_succ]
      rw [ih (base + 1) k h]
      congr 2
      omega


theorem load8_append_skip (new mem : List Store) (x : Nat)
    (h : ∀ s ∈ new, s.byteAt x = none) : load8 (new ++ mem) x = load8 mem x := by
  induction new with
  | nil => rfl
  | cons s new ih =>
    simp only [List.cons_append, load8, h s (List.mem_cons_self _ _)]
    exact ih fun t ht => h t (List.mem_cons_of_mem _ ht)

theorem byte_stores_addr_ge (base : Nat) (s : List Nat) (t : Store)
    (ht : t ∈ byte_stores base s) : base ≤ t.addr := by
  induction s generalizing base with
  | nil => simp [byte_stores] at ht
  | cons c s ih =>
    simp only [byte_stores, List.mem_cons] at ht
    rcases ht with rfl | ht
    · exact Nat.le_refl _
    · have := ih _ ht
      omega

/-- Memory after the byte stores of a text holds character `k` at `base + k`. -/
theorem load8_byte_stores (base : Nat) (s : List Nat) (mem : List Store) (k c : Nat)
    (h : s[k]? = some c) :
    load8 ((byte_stores base s).reverse ++ mem) (base + k) = some (c % 256) := by
  induction s generalizing base k mem with
  | nil => simp at h
  | cons d s ih =>
    simp only [byte_stores, List.reverse_cons, List.append_assoc, List.singleton_append]
    cases k with
    | zero =>
      simp only [List.getElem?_cons_zero, Option.some.injEq] at h
      rw [load8_append_skip]
      · simp [load8, Store.byteAt, h]
      · intro t ht
        have := byte_stores_addr_ge _ _ t (List.mem_reverse.mp ht)
        exact Store.byteAt_none_of_lt (by omega)
    | succ k =>
      simp only [List.getElem?_cons_succ] at h
      have := ih (base + 1) (Store.sb base (d % 256) :: mem) k h
      rw [show base + (k + 1) = base + 1 + k by omega]
      exact this

/-- C9: for every text `s` without NUL (bytes below 256) of length `n` and every
state with pad cursor `c` such that `c + n ≤ PAD_SIZE`, `print_pad("%s", s)`
returns, executes exactly `n` byte stores, the `k`-th of them (in order)
storing character `k` of `s` at `PAD_START + c + k`, stores nothing for the
terminator, and leaves the cursor at `c + n`; memory then holds character `k`
at `PAD_START + c + k`. -/
theorem print_s_packs_text (s : List Nat) (st : State) (hs : ∀ c ∈ s, c ≠ 0 ∧ c < 256)
    (hfit : st.pad_used + s.length ≤ PAD_SIZE) :
    ∃ (st1 : State) (new : List Store),
      print_pad (cstr "%s") [Arg.str s] st = Res.ok () st1 ∧
      st1.pad_used = st.pad_used + s.length ∧ st1.heap_used = st.heap_used ∧
      st1.mem = new.reverse ++ st.mem ∧ new.length = s.length ∧
      (∀ (k c : Nat), s[k]? = some c →
        new[k]? = some (Store.sb (PAD_START + st.pad_used + k) c)) ∧
      (∀ (k c : Nat), s[k]? = some c →
        load8 st1.mem (PAD_START + st.pad_used + k) = some c) := by
  have hmod : ∀ (k c : Nat), s[k]? = some c → c % 256 = c := fun k c h =>
    Nat.mod_eq_of_lt (hs c (List.getElem?_mem h)).2
  refine ⟨⟨st.heap_used, st.pad_used + s.length, residue_after s.length st.pad_align,
      (byte_stores (PAD_START + st.pad_used) s).reverse ++ st.mem⟩,
    byte_stores (PAD_START + st.pad_used) s, ?_, rfl, rfl, rfl,
    byte_stores_length _ _, ?_, ?_⟩
  · rw [cstr_pct_s, print_pad_pct_s]
    exact print_s_ok s st (fun c hc => (hs c hc).1) hfit
  · intro k c h
    rw [byte_stores_getElem? _ _ k c h, hmod k c h]
  · intro k c h
    show load8 ((byte_stores (PAD_START + st.pad_used) s).reverse ++ st.mem) _ = _
    rw [load8_byte_stores _ _ _ k c h, hmod k c h]

/-- C9 at its scenario: the text "Fibonacci" is the 9 bytes
46 69 62 6F 6E 61 63 63 69, and from the initial state `print_pad("%s", ...)`
stores them at `PAD_START .. PAD_START + 8`. -/
theorem print_s_packs_text_witness :
    cstr "Fibonacci" = [0x46, 0x69, 0x62, 0x6F, 0x6E, 0x61, 0x63, 0x63, 0x69] ∧
    ∃ (st1 : State) (new : List Store),
      print_pad (cstr "%s") [Arg.str (cstr "Fibonacci")] State.init = Res.ok () st1 ∧
      st1.pad_used = State.init.pad_used + (cstr "Fibonacci").length ∧
      st1.heap_used = State.init.heap_used ∧
      st1.mem = new.reverse ++ State.init.mem ∧ new.length = (cstr "Fibonacci").length ∧
      (∀ (k c : Nat), (cstr "Fibonacci")[k]? = some c →
        new[k]? = some (Store.sb (PAD_START + State.init.pad_used + k) c)) ∧
      (∀ (k c : Nat), (cstr "Fibonacci")[k]? = some c →
        load8 st1.mem (PAD_START + State.init.pad_used + k) = some c) :=
  ⟨by decide, print_s_packs_text (cstr "Fibonacci") State.init (by decide) (by decide)⟩

/-- A text that fills the pad exactly, followed by one more byte: the second
call halts with the byte stores of the text as the whole history. -/
theorem fill_then_byte_traps (s : List Nat) (hs : ∀ c ∈ s, c ≠ 0) (hlen : s.length = PAD_SIZE)
    (v : Nat) :
    print_pad_seq [([37, 115], [Arg.str s]), ([37, 99], [Arg.int v])] State.init
      = Res.trap ⟨0, PAD_SIZE + 1, residue_after s.length 0,
          (byte_stores PAD_START s).reverse⟩ := by
  have h1 := print_s_ok s State.init hs (by simp [State.init, hlen])
  simp only [print_pad_seq, print_pad_pct_s, print_pad_pct_c, h1, Res.bind, print_c]
  rw [palloc_one _ (by simp [State.init, hlen]), if_pos (by simp [State.init, hlen])]
  simp [State.init, Res.bind, hlen]

/-- C7 at a concrete run: `print_pad("%s", s)` with a text `s` of 1024 bytes
fills the pad; `print_pad("%c", 66)` then pushes the cursor to 1025 and halts
with the 1024 byte stores of the text as the whole history; a following
`print_pad("%d", 8)` never runs. -/
theorem pad_overrun_halts_witness :
    print_pad_seq [(cstr "%s", [Arg.str (List.replicate 1024 65)]), (cstr "%c", [Arg.int 66])]
        State.init
      = Res.trap ⟨0, 1025, residue_after (List.replicate 1024 65).length 0,
          (byte_stores PAD_START (List.replicate 1024 65)).reverse⟩ ∧
    print_pad_seq ([(cstr "%s", [Arg.str (List.replicate 1024 65)]), (cstr "%c", [Arg.int 66])]
        ++ [(cstr "%d", [Arg.int 8])]) State.init
      = Res.trap ⟨0, 1025, residue_after (List.replicate 1024 65).length 0,
          (byte_stores PAD_START (List.replicate 1024 65)).reverse⟩ := by
  have h : print_pad_seq
      [(cstr "%s", [Arg.str (List.replicate 1024 65)]), (cstr "%c", [Arg.int 66])] State.init
      = Res.trap ⟨0, 1025, residue_after (List.replicate 1024 65).length 0,
          (byte_stores PAD_START (List.replicate 1024 65)).reverse⟩ := by
    rw [cstr_pct_s, cstr_pct_c]
    exact fill_then_byte_traps (List.replicate 1024 65)
      (fun c hc => by rw [List.eq_of_mem_replicate hc]; decide) (List.length_replicate _ _) 66
  exact ⟨h, (pad_overrun_halts _ _ h).2.2.2.2.1 _⟩


/-! ## Reading the pad stream back -/

theorem Res.bind_eq_ok {α β : Type} {r : Res α} {f : α → State → Res β} {b : β} {st1 : State}
    (h : r.bind f = Res.ok b st1) : ∃ a st2, r = Res.ok a st2 ∧ f a st2 = Res.ok b st1 := by
  cases r with
  | ok a st2 => exact ⟨a, st2, rfl, h⟩
  | trap st2 => cases h
  | undef => cases h

/-- Stores added by an extension lie at or above the old cursor, so memory
below the old cursor is unchanged. -/
theorem load8_ext {a b : State} (h : Ext a b) {x : Nat} (hx : x < PAD_START + a.pad_used) :
    load8 b.mem x = load8 a.mem x := by
  obtain ⟨_, _, new, hm, hb⟩ := h
  rw [hm]
  apply load8_append_skip
  intro s hs
  have := hb s hs
  exact Store.byteAt_none_of_lt (by omega)

theorem load32_congr {m n : List Store} {a : Nat}
    (h : ∀ k, k < 4 → load8 m (a + k) = load8 n (a + k)) : load32 m a = load32 n a := by
  have h0 := h 0 (by norm_num)
  have h1 := h 1 (by norm_num)
  have h2 := h 2 (by norm_num)
  have h3 := h 3 (by norm_num)
  simp only [Nat.add_zero] at h0
  simp only [load32, h0, h1, h2, h3]

theorem read_bytes_eq (m : List Store) (s : List Nat) (a : Nat)
    (h : ∀ (k c : Nat), s[k]? = some c → load8 m (a + k) = some c) :
    read_bytes m a s.length = some s := by
  induction s generalizing a with
  | nil => rfl
  | cons c s ih =>
    have h0 := h 0 c (by simp)
    simp only [Nat.add_zero] at h0
    have h1 := ih (a + 1) fun k d hk => by
      have := h (k + 1) d (by simpa using hk)
      rw [show a + 1 + k = a + (k + 1) by omega]
      exact this
    simp only [List.length_cons, read_bytes, h0, h1]

theorem print_c_ok_spec (c : Nat) (st st2 : State) (hu : st.pad_used ≤ PAD_SIZE)
    (h : print_c c st = Res.ok () st2) :
    st2.pad_used = st.pad_used + 1 ∧
      st2.mem = Store.sb (PAD_START + st.pad_used) (c % 256) :: st.mem := by
  unfold print_c at h
  rw [palloc_one st hu] at h
  by_cases hfull : PAD_SIZE < st.pad_used + 1
  · rw [if_pos hfull] at h
    cases h
  · rw [if_neg hfull] at h
    simp only [Res.bind, Res.ok.injEq, true_and] at h
    subst h
    exact ⟨rfl, rfl⟩

theorem print_d_ok_spec (d : Nat) (st st2 : State) (hi : PadInv st)
    (h : print_d d st = Res.ok () st2) :
    st2.pad_used = up4 st.pad_used + 4 ∧
      st2.mem = Store.sw (PAD_START + up4 st.pad_used) (d % 2 ^ 32) :: st.mem := by
  unfold print_d at h
  rw [palloc_four st hi.used_le hi.align_eq] at h
  by_cases hfull : PAD_SIZE < up4 st.pad_used + 4
  · rw [if_pos hfull] at h
    cases h
  · rw [if_neg hfull] at h
    simp only [Res.bind, Res.ok.injEq, true_and] at h
    subst h
    exact ⟨rfl, rfl⟩

/-- A text that `print_s` stores completely fitted below `PAD_SIZE`. -/
theorem print_s_fits (s : List Nat) (st st2 : State) (hs : ∀ c ∈ s, c ≠ 0)
    (hu : st.pad_used ≤ PAD_SIZE) (h : print_s s st = Res.ok () st2) :
    st.pad_used + s.length ≤ PAD_SIZE := by
  induction s generalizing st with
  | nil => simpa using hu
  | cons c s ih =>
    rw [print_s, if_neg (hs c (List.mem_cons_self _ _))] at h
    obtain ⟨_, st3, h1, h2⟩ := Res.bind_eq_ok h
    have h3 := (print_c_ok_spec c st st3 hu h1).1
    have hle : st3.pad_used ≤ PAD_SIZE := by
      unfold print_c at h1
      rw [palloc_one st hu] at h1
      by_cases hfull : PAD_SIZE < st.pad_used + 1
      · rw [if_pos hfull] at h1
        cases h1
      · omega
    have := ih st3 (fun x hx => hs x (List.mem_cons_of_mem _ hx)) hle h2
    simp only [List.length_cons]
    omega

theorem isEmpty_eq_nil {ap : List Arg} (h : ap.isEmpty = true) : ap = [] := by
  cases ap with
  | nil => rfl
  | cons a ap => simp at h

/-- The reader inverts one directive: on any memory that agrees with the memory
after the directive on the bytes it allocated, it returns the argument the
directive consumed and the cursor it reached. -/
theorem read_back_directive (d : Nat) (ap ap0 ap1 : List Arg) (st st2 : State)
    (m : List Store) (hinv : PadInv st) (hfit : directive_fit d ap = some ap0)
    (hrun : print_directive d ap st = Res.ok ap1 st2)
    (hm : ∀ x, PAD_START + st.pad_used ≤ x → x < PAD_START + st2.pad_used →
      load8 m x = load8 st2.mem x) :
    ap0 = ap1 ∧ ∃ v, ap = v ++ ap1 ∧
      read_directive d (text_lengths ap) m st.pad_used
        = some (v, text_lengths ap1, st2.pad_used) := by
  have hp2 := post_print_directive d ap st hinv
  rw [hrun] at hp2
  unfold print_directive at hrun
  unfold directive_fit at hfit
  unfold read_directive
  by_cases h99 : d = 99
  · rw [if_pos h99] at hrun hfit ⊢
    match ap, hfit, hrun with
    | Arg.int v :: ap3, hfit, hrun =>
      simp only at hfit
      split_ifs at hfit with hv
      simp only [Option.some.injEq] at hfit
      obtain ⟨_, st3, h3, h4⟩ := Res.bind_eq_ok hrun
      simp only [Res.ok.injEq] at h4
      obtain ⟨rfl, rfl⟩ := h4
      obtain ⟨hu3, hmem3⟩ := print_c_ok_spec v st st3 hinv.used_le h3
      have hb : load8 m (PAD_START + st.pad_used) = some v := by
        rw [hm _ (Nat.le_refl _) (by omega), hmem3]
        simp [load8, Store.byteAt, Nat.mod_eq_of_lt hv]
      refine ⟨hfit.symm, [Arg.int v], rfl, ?_⟩
      simp only [text_lengths, hb, hu3]
  · rw [if_neg h99] at hrun hfit ⊢
    by_cases h115 : d = 115
    · rw [if_pos h115] at hrun hfit ⊢
      match ap, hfit, hrun with
      | Arg.str s :: ap3, hfit, hrun =>
        simp only at hfit
        split_ifs at hfit with hsv
        simp only [Option.some.injEq] at hfit
        obtain ⟨_, st3, h3, h4⟩ := Res.bind_eq_ok hrun
        simp only [Res.ok.injEq] at h4
        obtain ⟨rfl, rfl⟩ := h4
        have hs0 : ∀ x ∈ s, x ≠ 0 := fun x hx => (hsv x hx).1
        have hfits := print_s_fits s st st3 hs0 hinv.used_le h3
        have h5 := print_s_ok s st hs0 hfits
        rw [h3] at h5
        simp only [Res.ok.injEq, true_and] at h5
        have hu3 : st3.pad_used = st.pad_used + s.length := by rw [h5]
        have hb : read_bytes m (PAD_START + st.pad_used) s.length = some s := by
          apply read_bytes_eq
          intro k c hk
          have hklt : k < s.length := by
            rcases List.getElem?_eq_some.mp hk with ⟨hk1, _⟩
            exact hk1
          rw [hm _ (by omega) (by omega), h5]
          show load8 ((byte_stores (PAD_START + st.pad_used) s).reverse ++ st.mem) _ = _
          rw [load8_byte_stores _ _ _ k c hk, Nat.mod_eq_of_lt (hsv c (List.getElem?_mem hk)).2]
        refine ⟨hfit.symm, [Arg.str s], rfl, ?_⟩
        simp only [text_lengths, hb, hu3]
    · rw [if_neg h115] at hrun hfit ⊢
      by_cases h100 : d = 100
      · rw [if_pos h100] at hrun hfit ⊢
        match ap, hfit, hrun with
        | Arg.int v :: ap3, hfit, hrun =>
          simp only at hfit
          split_ifs at hfit with hv
          simp only [Option.some.injEq] at hfit
          obtain ⟨_, st3, h3, h4⟩ := Res.bind_eq_ok hrun
          simp only [Res.ok.injEq] at h4
          obtain ⟨rfl, rfl⟩ := h4
          obtain ⟨hu3, hmem3⟩ := print_d_ok_spec v st st3 hinv h3
          have hge := up4_ge st.pad_used
          have hb : load32 m (PAD_START + up4 st.pad_used) = some v := by
            rw [load32_congr (n := st3.mem) fun k hk => hm _ (by omega) (by omega)]
            have := load32_sw_of_laid hp2.1.laid (a := PAD_START + up4 st.pad_used)
              (v := v % 2 ^ 32) (by rw [hmem3]; exact List.mem_cons_self _ _)
            rw [this, Nat.mod_eq_of_lt hv]
          refine ⟨hfit.symm, [Arg.int v], rfl, ?_⟩
          simp only [text_lengths, hb, hu3]
      · rw [if_neg h100] at hrun hfit ⊢
        simp only [Res.ok.injEq] at hrun
        simp only [Option.some.injEq] at hfit
        obtain ⟨rfl, rfl⟩ := hrun
        exact ⟨hfit.symm, [], rfl, rfl⟩


/-- The reader inverts one format string: started at the cursor the call
started from, on any memory that agrees with the memory at the end of the call
on the bytes the call allocated, it returns the arguments and the final
cursor. -/
theorem read_back_from (n : Nat) : ∀ (fmt : List Nat), fmt.length ≤ n →
    ∀ (ap : List Arg) (st st1 : State) (m : List Store), PadInv st →
      args_fit fmt ap = true → print_pad_from fmt ap st = Res.ok () st1 →
      (∀ x, PAD_START + st.pad_used ≤ x → x < PAD_START + st1.pad_used →
        load8 m x = load8 st1.mem x) →
      read_pad_from fmt (text_lengths ap) m st.pad_used = some (ap, st1.pad_used) := by
  induction n using Nat.strong_induction_on with
  | _ n ih =>
    intro fmt hlen ap st st1 m hinv hfit hrun hm
    match fmt, hlen with
    | [], _ =>
      simp only [print_pad_from, Res.ok.injEq, true_and] at hrun
      simp only [args_fit] at hfit
      subst hrun
      rw [isEmpty_eq_nil hfit]
      rfl
    | [c], _ =>
      simp only [args_fit] at hfit
      rw [isEmpty_eq_nil hfit]
      unfold print_pad_from at hrun
      unfold read_pad_from
      by_cases h0 : c = 0
      · rw [if_pos h0] at hrun ⊢
        simp only [Res.ok.injEq, true_and] at hrun
        subst hrun
        rfl
      · rw [if_neg h0] at hrun ⊢
        by_cases h37 : c = 37
        · rw [if_pos h37, print_directive_zero] at hrun
          cases hrun
        · rw [if_neg h37] at hrun ⊢
          obtain ⟨_, st2, h1, h2⟩ := Res.bind_eq_ok hrun
          simp only [print_pad_from, Res.ok.injEq, true_and] at h2
          subst h2
          rw [(print_c_ok_spec c st st2 hinv.used_le h1).1]
    | c :: d :: rest, hlen =>
      simp only [List.length_cons] at hlen
      unfold args_fit at hfit
      unfold print_pad_from at hrun
      unfold read_pad_from
      by_cases h0 : c = 0
      · rw [if_pos h0] at hrun hfit ⊢
        simp only [Res.ok.injEq, true_and] at hrun
        subst hrun
        rw [isEmpty_eq_nil hfit]
      · rw [if_neg h0] at hrun hfit ⊢
        by_cases h37 : c = 37
        · rw [if_pos h37] at hrun hfit ⊢
          obtain ⟨ap1, st2, h1, h2⟩ := Res.bind_eq_ok hrun
          have hp2 := post_print_directive d ap st hinv
          rw [h1] at hp2
          have hp1 := post_print_pad_from rest.length rest (Nat.le_refl _) ap1 st2 hp2.1
          rw [h2] at hp1
          have hle := hp1.2.2.1
          have hle2 := hp2.2.2.1
          cases hdf : directive_fit d ap with
          | none => rw [hdf] at hfit; cases hfit
          | some ap0 =>
            rw [hdf] at hfit
            simp only at hfit
            obtain ⟨he, v, hv, hread⟩ := read_back_directive d ap ap0 ap1 st st2 m hinv hdf h1
              (fun x hx1 hx2 => by rw [hm x hx1 (by omega), load8_ext hp1.2 hx2])
            subst he
            have hrec := ih rest.length (by omega) rest (Nat.le_refl _) ap0 st2 st1 m hp2.1 hfit h2
              (fun x hx1 hx2 => hm x (by omega) hx2)
            rw [hread]
            simp only [hrec]
            rw [hv]
        · rw [if_neg h37] at hrun hfit ⊢
          obtain ⟨_, st2, h1, h2⟩ := Res.bind_eq_ok hrun
          have hp2 := post_print_c c st hinv
          rw [h1] at hp2
          have hu2 := (print_c_ok_spec c st st2 hinv.used_le h1).1
          have := ih (d :: rest).length (by simp only [List.length_cons]; omega) (d :: rest)
            (Nat.le_refl _) ap st2 st1 m hp2.1 hfit h2
            (fun x hx1 hx2 => hm x (by omega) hx2)
          rw [hu2] at this
          exact this

/-- The reader inverts a run of calls. -/
theorem read_back_seq (calls : List (List Nat × List Arg)) :
    ∀ (st st1 : State) (m : List Store), PadInv st →
      (∀ call ∈ calls, args_fit call.1 call.2 = true) →
      print_pad_seq calls st = Res.ok () st1 →
      (∀ x, PAD_START + st.pad_used ≤ x → x < PAD_START + st1.pad_used →
        load8 m x = load8 st1.mem x) →
      read_pad_seq (calls.map fun call => (call.1, text_lengths call.2)) m st.pad_used
        = some (calls.map fun call => call.2, st1.pad_used) := by
  induction calls with
  | nil =>
    intro st st1 m _ _ hrun _
    simp only [print_pad_seq, Res.ok.injEq, true_and] at hrun
    subst hrun
    rfl
  | cons call calls ih =>
    intro st st1 m hinv hfit hrun hm
    unfold print_pad_seq at hrun
    obtain ⟨_, st2, h1, h2⟩ := Res.bind_eq_ok hrun
    have hp2 := post_print_pad call.1 call.2 st hinv
    rw [h1] at hp2
    have hp1 := post_print_pad_seq calls st2 hp2.1
    rw [h2] at hp1
    have hle := hp1.2.2.1
    have hle2 := hp2.2.2.1
    rw [print_pad_eq_from] at h1
    have hone := read_back_from call.1.length call.1 (Nat.le_refl _) call.2 st st2 m hinv
      (hfit call (List.mem_cons_self _ _)) h1
      (fun x hx1 hx2 => by rw [hm x hx1 (by omega), load8_ext hp1.2 hx2])
    have hrest := ih st2 st1 m hp2.1 (fun c hc => hfit c (List.mem_cons_of_mem _ hc)) h2
      (fun x hx1 hx2 => hm x (by omega) hx2)
    simp only [List.map_cons, read_pad_seq, hone, hrest]


/-- C4 as stated fails: `print_pad("%s%s", "A", "B")` and
`print_pad("%s%s", "AB", "")` have the same format string and, from the initial
state, end in the same state with the same stores, although the arguments
differ: the stream does not record where one text ends. -/
theorem text_boundaries_not_recoverable :
    ¬ (∀ (calls1 calls2 : List (List Nat × List Arg)) (st1 st2 : State),
        calls1.map Prod.fst = calls2.map Prod.fst →
        print_pad_seq calls1 State.init = Res.ok () st1 →
        print_pad_seq calls2 State.init = Res.ok () st2 →
        st1.pad_used ≤ PAD_SIZE → st1.mem = st2.mem →
        calls1.map Prod.snd = calls2.map Prod.snd) := by
  intro h
  have h1 : print_pad_seq [(cstr "%s%s", [Arg.str (cstr "A"), Arg.str (cstr "B")])] State.init
      = Res.ok () ⟨0, 2, 2, [Store.sb (PAD_START + 1) 66, Store.sb PAD_START 65]⟩ := by
    simp only [print_pad_seq, print_pad_eq_from]
    decide
  have h2 : print_pad_seq [(cstr "%s%s", [Arg.str (cstr "AB"), Arg.str []])] State.init
      = Res.ok () ⟨0, 2, 2, [Store.sb (PAD_START + 1) 66, Store.sb PAD_START 65]⟩ := by
    simp only [print_pad_seq, print_pad_eq_from]
    decide
  have h3 := h [(cstr "%s%s", [Arg.str (cstr "A"), Arg.str (cstr "B")])]
    [(cstr "%s%s", [Arg.str (cstr "AB"), Arg.str []])] _ _ rfl h1 h2 (by decide) rfl
  revert h3
  decide

/-- The argument of `%c` is stored as its low 8 bits only: 65 and 321 leave the
same pad. -/
theorem char_argument_truncated :
    print_pad (cstr "%c") [Arg.int 65] State.init
      = print_pad (cstr "%c") [Arg.int 321] State.init := by
  simp only [print_pad_eq_from]
  decide

/-- C4 (amended): for every run of `print_pad` calls from the initial state that
returns, with arguments of the types of their directives, the reader that
replays the format strings on the final memory, given only the length of each
text, returns exactly the arguments of every call and ends at the final
cursor. -/
theorem pad_read_back (calls : List (List Nat × List Arg)) (st : State)
    (hfit : ∀ call ∈ calls, args_fit call.1 call.2 = true)
    (h : print_pad_seq calls State.init = Res.ok () st) :
    read_pad_seq (calls.map fun call => (call.1, text_lengths call.2)) st.mem 0
      = some (calls.map fun call => call.2, st.pad_used) :=
  read_back_seq calls State.init st st.mem padInv_init hfit h (fun _ _ _ => rfl)

/-- The amended C4 at a concrete run: `print_pad("%c%d", 'A', 7)` followed by
`print_pad("x%s", "AB")`. -/
theorem pad_read_back_witness :
    print_pad_seq [(cstr "%c%d", [Arg.int 65, Arg.int 7]), (cstr "x%s", [Arg.str (cstr "AB")])]
        State.init
      = Res.ok () ⟨0, 11, 3,
          [Store.sb (PAD_START + 10) 66, Store.sb (PAD_START + 9) 65,
           Store.sb (PAD_START + 8) 120, Store.sw (PAD_START + 4) 7, Store.sb PAD_START 65]⟩ ∧
    read_pad_seq [(cstr "%c%d", []), (cstr "x%s", [2])]
        [Store.sb (PAD_START + 10) 66, Store.sb (PAD_START + 9) 65,
         Store.sb (PAD_START + 8) 120, Store.sw (PAD_START + 4) 7, Store.sb PAD_START 65] 0
      = some ([[Arg.int 65, Arg.int 7], [Arg.str (cstr "AB")]], 11) := by
  have h : print_pad_seq
      [(cstr "%c%d", [Arg.int 65, Arg.int 7]), (cstr "x%s", [Arg.str (cstr "AB")])] State.init
      = Res.ok () ⟨0, 11, 3,
          [Store.sb (PAD_START + 10) 66, Store.sb (PAD_START + 9) 65,
           Store.sb (PAD_START + 8) 120, Store.sw (PAD_START + 4) 7, Store.sb PAD_START 65]⟩ := by
    simp only [print_pad_seq, print_pad_eq_from]
    decide
  exact ⟨h, pad_read_back _ _ (by decide) h⟩

/-- C6, the code at the failing input: from the initial state `palloc(5)` returns
`PAD_START` and sets the residue to 5 (the 32-bit difference `sizeof(int) - 5`
wraps, so the comparison with it succeeds); `palloc(4)` then adds the wrapped
padding `4 - 5`, returns `PAD_START + 4` without `ebreak`, and the byte at
`PAD_START + 4` belongs to both returned ranges. -/
theorem palloc_five_then_four_overlap :
    palloc 5 State.init = Res.ok PAD_START ⟨0, 5, 5, []⟩ ∧
    palloc_seq [5, 4] State.init = Res.ok [PAD_START, PAD_START + 4] ⟨0, 8, 0, []⟩ ∧
    (PAD_START ≤ PAD_START + 4 ∧ PAD_START + 4 < PAD_START + 5) ∧
    (PAD_START + 4 ≤ PAD_START + 4 ∧ PAD_START + 4 < PAD_START + 4 + 4) := by
  decide


/-- The format `"%d"` runs `print_d` on its argument. -/
theorem print_pad_pct_d (v : Nat) (st : State) :
    print_pad [37, 100] [Arg.int v] st = print_d v st := by
  rw [print_pad_eq_from]
  simp only [print_pad_from, print_directive]
  norm_num
  cases print_d v st <;> rfl

/-- A text of 1017 bytes, a word and a byte request 1022 bytes in total, yet the
run halts: the word is placed at offset 1020 after 3 bytes of alignment padding
and ends at 1024, so the byte no longer fits. -/
theorem padding_overruns_size_budget (s : List Nat) (hs : ∀ c ∈ s, c ≠ 0)
    (hlen : s.length = 1017) (v w : Nat) :
    s.length + 4 + 1 ≤ PAD_SIZE ∧
    ∃ st, print_pad_seq [([37, 115], [Arg.str s]), ([37, 100], [Arg.int v]),
      ([37, 99], [Arg.int w])] State.init = Res.trap st := by
  refine ⟨by rw [hlen]; decide, ?_⟩
  have h1 := print_s_ok s State.init hs (by rw [hlen]; decide)
  have hp := post_print_s s State.init padInv_init
  rw [h1] at hp
  obtain ⟨hinv2, _⟩ := hp
  have hd := post_print_d v _ hinv2
  have hu4 : up4 (State.init.pad_used + s.length) = 1020 := by
    rw [hlen]; decide
  simp only [print_pad_seq, print_pad_pct_s, print_pad_pct_d, print_pad_pct_c, h1, Res.bind]
  unfold print_d at hd ⊢
  rw [palloc_four _ hinv2.used_le hinv2.align_eq] at hd ⊢
  simp only [hu4] at hd ⊢
  rw [if_neg (by decide)] at hd ⊢
  simp only [Res.bind] at hd ⊢
  unfold print_c
  rw [palloc_one _ hd.1.used_le, if_pos (by simp)]
  exact ⟨_, rfl⟩

/-- A run of requests whose rounded sizes total exactly `HEAP_SIZE` returns for
every request, and a request of one more byte after it executes `ebreak`. -/
theorem malloc_exact_fill_then_trap (ts : List Nat)
    (h : (ts.map round_up).sum = HEAP_SIZE) :
    ∃ (ps : List Nat) (st : State), malloc_seq ts State.init = Res.ok ps st ∧
      ps.length = ts.length ∧ ∃ st1, malloc 1 st = Res.trap st1 := by
  refine ⟨_, _, malloc_seq_ok ts State.init (by simp [State.init, h]),
    heap_addrs_length _ _, ?_⟩
  apply (malloc_trap_iff_no_wrap 1 _ ?_).mpr
  · show HEAP_SIZE < State.init.heap_used + (ts.map round_up).sum + round_up 1
    rw [h]
    decide
  · show State.init.heap_used + (ts.map round_up).sum + round_up 1 < 2 ^ 32
    rw [h]
    decide


/-! ## The pad allocator at request sizes up to one word -/

/-- For a request of at most 4 bytes made with a residue below 4, a call that
returns places the block at or after the old cursor, ending at the new cursor,
within capacity, and leaves a residue below 4. -/
theorem palloc_small (t : Nat) (st : State) (ht : t ≤ 4) (hu : st.pad_used ≤ PAD_SIZE)
    (ha : st.pad_align < 4) (p : Nat) (st1 : State) (h : palloc t st = Res.ok p st1) :
    PAD_START + st.pad_used ≤ p ∧ p + t = PAD_START + st1.pad_used ∧
      st1.pad_used ≤ PAD_SIZE ∧ st1.pad_align < 4 := by
  simp only [PAD_SIZE, PAD_START] at *
  have h1 : wadd st.pad_used t = st.pad_used + t := wadd_small (by norm_num; omega)
  have h2 : wsub 4 st.pad_align = 4 - st.pad_align := wsub_small (by omega) (by norm_num)
  have h3 : wsub 4 t = 4 - t := wsub_small ht (by norm_num)
  have h4 : wadd (st.pad_used + t) (4 - st.pad_align) = st.pad_used + t + (4 - st.pad_align) :=
    wadd_small (by norm_num; omega)
  unfold palloc at h
  simp only [h1, h2, h3, h4, PAD_SIZE, PAD_START] at h
  by_cases hpad : t ≥ 4 ∧ st.pad_align > 0
  · rw [if_pos hpad] at h
    by_cases hfull : st.pad_used + t + (4 - st.pad_align) > 1024
    · rw [if_pos hfull] at h
      cases h
    · rw [if_neg hfull] at h
      simp only [Res.ok.injEq] at h
      obtain ⟨hp, hst⟩ := h
      subst hst
      rw [wadd_small (by norm_num; omega), wsub_small (by omega) (by norm_num; omega)] at hp
      subst hp
      refine ⟨by omega, by simp only; omega, by simp only; omega, ?_⟩
      simp only
      split_ifs with h5
      · rw [wadd_small (by norm_num; omega)]; omega
      · omega
  · rw [if_neg hpad] at h
    by_cases hfull : st.pad_used + t > 1024
    · rw [if_pos hfull] at h
      cases h
    · rw [if_neg hfull] at h
      simp only [Res.ok.injEq] at h
      obtain ⟨hp, hst⟩ := h
      subst hst
      rw [wadd_small (by norm_num; omega), wsub_small (by omega) (by norm_num; omega)] at hp
      subst hp
      refine ⟨by omega, by simp only; omega, by simp only; omega, ?_⟩
      simp only
      split_ifs with h5
      · rw [wadd_small (by norm_num; omega)]; omega
      · omega

/-- For runs of requests of at most 4 bytes each, every returned block lies
between the starting cursor and the final cursor, which is within capacity, and
an earlier block ends at or before the start of every later one. -/
theorem palloc_seq_small (ts : List Nat) :
    ∀ (st st1 : State) (ps : List Nat), (∀ t ∈ ts, t ≤ 4) → st.pad_used ≤ PAD_SIZE →
      st.pad_align < 4 → palloc_seq ts st = Res.ok ps st1 →
      st.pad_used ≤ st1.pad_used ∧ st1.pad_used ≤ PAD_SIZE ∧
      (∀ p ∈ ps, PAD_START + st.pad_used ≤ p) ∧
      (∀ (i p t : Nat), ps[i]? = some p → ts[i]? = some t →
        p + t ≤ PAD_START + st1.pad_used) ∧
      (∀ (i j p t q : Nat), i < j → ps[i]? = some p → ts[i]? = some t → ps[j]? = some q →
        p + t ≤ q) := by
  induction ts with
  | nil =>
    intro st st1 ps _ hu _ h
    simp only [palloc_seq, Res.ok.injEq] at h
    obtain ⟨rfl, rfl⟩ := h
    exact ⟨Nat.le_refl _, hu, by simp, by simp, by simp⟩
  | cons t ts ih =>
    intro st st1 ps hts hu ha h
    unfold palloc_seq at h
    obtain ⟨p0, st2, h1, h2⟩ := Res.bind_eq_ok h
    obtain ⟨ps1, st3, h3, h4⟩ := Res.bind_eq_ok h2
    simp only [Res.ok.injEq] at h4
    obtain ⟨rfl, rfl⟩ := h4
    obtain ⟨hp0, hend, hu2, ha2⟩ :=
      palloc_small t st (hts t (List.mem_cons_self _ _)) hu ha p0 st2 h1
    obtain ⟨hmono, hcap, hge, hin, hord⟩ :=
      ih st2 st3 ps1 (fun x hx => hts x (List.mem_cons_of_mem _ hx)) hu2 ha2 h3
    refine ⟨by omega, hcap, ?_, ?_, ?_⟩
    · intro p hp
      rcases List.mem_cons.mp hp with rfl | hp1
      · exact hp0
      · have := hge p hp1
        omega
    · intro i p u hp hu1
      cases i with
      | zero =>
        simp only [List.getElem?_cons_zero, Option.some.injEq] at hp hu1
        subst hp hu1
        omega
      | succ i =>
        simp only [List.getElem?_cons_succ] at hp hu1
        exact hin i p u hp hu1
    · intro i j p u q hij hp hu1 hq
      cases j with
      | zero => omega
      | succ j =>
        simp only [List.getElem?_cons_succ] at hq
        cases i with
        | zero =>
          simp only [List.getElem?_cons_zero, Option.some.injEq] at hp hu1
          subst hp hu1
          have := hge q (List.getElem?_mem hq)
          omega
        | succ i =>
          simp only [List.getElem?_cons_succ] at hp hu1
          exact hord i j p u q (by omega) hp hu1 hq

/-- For runs of requests of at most 4 bytes each from the initial state in which
no call traps, each returned range lies inside the Pad Region and no two
returned ranges share a byte. -/
theorem palloc_small_blocks (ts : List Nat) (ps : List Nat) (st : State)
    (hts : ∀ t ∈ ts, t ≤ 4) (h : palloc_seq ts State.init = Res.ok ps st) :
    (∀ (i p t : Nat), ps[i]? = some p → ts[i]? = some t →
      PAD_START ≤ p ∧ p + t ≤ PAD_START + PAD_SIZE) ∧
    (∀ (i j p t q u x : Nat), i ≠ j → ps[i]? = some p → ts[i]? = some t →
      ps[j]? = some q → ts[j]? = some u →
      ¬ (p ≤ x ∧ x < p + t ∧ q ≤ x ∧ x < q + u)) := by
  obtain ⟨_, hcap, hge, hin, hord⟩ :=
    palloc_seq_small ts State.init st ps hts (by simp [State.init]) (by simp [State.init]) h
  constructor
  · intro i p t hp ht
    have h1 := hge p (List.getElem?_mem hp)
    have h2 := hin i p t hp ht
    omega
  · intro i j p t q u x hij hp ht hq hu
    rcases Nat.lt_or_gt_of_ne hij with hlt | hgt
    · have := hord i j p t q hlt hp ht hq
      omega
    · have := hord j i q u p hgt hq hu hp
      omega


/-! ## Literal characters and unrecognised directive letters -/

/-- One step of the suffix view at a literal character. -/
theorem print_pad_from_lit (c : Nat) (rest : List Nat) (ap : List Arg) (st : State)
    (h0 : c ≠ 0) (h37 : c ≠ 37) :
    print_pad_from (c :: rest) ap st
      = (print_c c st).bind fun _ st1 => print_pad_from rest ap st1 := by
  cases rest with
  | nil => rw [print_pad_from, if_neg h0, if_neg h37]
  | cons d rest => rw [print_pad_from, if_neg h0, if_neg h37]

/-- One step of the suffix view at a `%` followed by the character `d`. -/
theorem print_pad_from_pct (d : Nat) (rest : List Nat) (ap : List Arg) (st : State) :
    print_pad_from (37 :: d :: rest) ap st
      = (print_directive d ap st).bind fun ap1 st1 => print_pad_from rest ap1 st1 := by
  rw [print_pad_from, if_neg (by decide), if_pos rfl]

/-- A format without `%` is emitted like a text. -/
theorem print_pad_from_literals (fmt : List Nat) (ap : List Arg) (st : State)
    (h : ∀ c ∈ fmt, c ≠ 37) : print_pad_from fmt ap st = print_s fmt st := by
  induction fmt generalizing st with
  | nil => rfl
  | cons c rest ih =>
    by_cases h0 : c = 0
    · subst h0
      cases rest <;> simp [print_pad_from, print_s]
    · rw [print_pad_from_lit c rest ap st h0 (h c (List.mem_cons_self _ _)), print_s, if_neg h0]
      congr 1
      funext _ st1
      exact ih st1 fun x hx => h x (List.mem_cons_of_mem _ hx)

/-- C11: for every format string without `%` (and without NUL, bytes below 256)
of length `n`, every argument list and every state with pad cursor `c` such
that `c + n ≤ PAD_SIZE`, `print_pad` returns, executes exactly `n` byte stores,
the `k`-th of them storing character `k` of the format at `PAD_START + c + k`,
and leaves the cursor at `c + n`. No argument is consumed: the outcome is the
one for the empty argument list, on which any `va_arg` would be undefined. -/
theorem print_pad_literal_text (fmt : List Nat) (ap : List Arg) (st : State)
    (hf : ∀ c ∈ fmt, c ≠ 0 ∧ c ≠ 37 ∧ c < 256) (hfit : st.pad_used + fmt.length ≤ PAD_SIZE) :
    ∃ (st1 : State) (new : List Store),
      print_pad fmt ap st = Res.ok () st1 ∧ print_pad fmt [] st = Res.ok () st1 ∧
      st1.pad_used = st.pad_used + fmt.length ∧ st1.heap_used = st.heap_used ∧
      st1.mem = new.reverse ++ st.mem ∧ new.length = fmt.length ∧
      (∀ (k c : Nat), fmt[k]? = some c →
        new[k]? = some (Store.sb (PAD_START + st.pad_used + k) c)) ∧
      (∀ (k c : Nat), fmt[k]? = some c →
        load8 st1.mem (PAD_START + st.pad_used + k) = some c) := by
  have hmod : ∀ (k c : Nat), fmt[k]? = some c → c % 256 = c := fun k c h =>
    Nat.mod_eq_of_lt (hf c (List.getElem?_mem h)).2.2
  have hrun : ∀ ap1 : List Arg, print_pad fmt ap1 st = Res.ok ()
      ⟨st.heap_used, st.pad_used + fmt.length, residue_after fmt.length st.pad_align,
        (byte_stores (PAD_START + st.pad_used) fmt).reverse ++ st.mem⟩ := by
    intro ap1
    rw [print_pad_eq_from, print_pad_from_literals fmt ap1 st fun c hc => (hf c hc).2.1]
    exact print_s_ok fmt st (fun c hc => (hf c hc).1) hfit
  refine ⟨_, byte_stores (PAD_START + st.pad_used) fmt, hrun ap, hrun [], rfl, rfl, rfl,
    byte_stores_length _ _, ?_, ?_⟩
  · intro k c h
    rw [byte_stores_getElem? _ _ k c h, hmod k c h]
  · intro k c h
    show load8 ((byte_stores (PAD_START + st.pad_used) fmt).reverse ++ st.mem) _ = _
    rw [load8_byte_stores _ _ _ k c h, hmod k c h]

/-- C11 at a concrete call: `print_pad("Hello", 7)` from the initial state. -/
theorem print_pad_literal_text_witness :
    ∃ (st1 : State) (new : List Store),
      print_pad (cstr "Hello") [Arg.int 7] State.init = Res.ok () st1 ∧
      print_pad (cstr "Hello") [] State.init = Res.ok () st1 ∧
      st1.pad_used = State.init.pad_used + (cstr "Hello").length ∧
      st1.heap_used = State.init.heap_used ∧
      st1.mem = new.reverse ++ State.init.mem ∧ new.length = (cstr "Hello").length ∧
      (∀ (k c : Nat), (cstr "Hello")[k]? = some c →
        new[k]? = some (Store.sb (PAD_START + State.init.pad_used + k) c)) ∧
      (∀ (k c : Nat), (cstr "Hello")[k]? = some c →
        load8 st1.mem (PAD_START + State.init.pad_used + k) = some c) :=
  print_pad_literal_text (cstr "Hello") [Arg.int 7] State.init (by decide) (by decide)

/-- C12: when the loop of `print_pad` is at a `%` followed by a character `d`
other than `'c'`, `'s'`, `'d'` and the terminator, the directive returns the
argument list and the state unchanged (no store, same cursor, same residue, no
argument consumed) and the loop continues two characters further with them, so
the next recognised directive receives the next unconsumed argument. -/
theorem unknown_directive_skipped (format : List Nat) (i d : Nat) (ap : List Arg) (st : State)
    (hi : format[i]? = some 37) (hd : format[i + 1]? = some d)
    (_h0 : d ≠ 0) (hc : d ≠ 99) (hs : d ≠ 115) (hdd : d ≠ 100) :
    print_directive d ap st = Res.ok ap st ∧
    print_pad_loop format i ap st = print_pad_loop format (i + 2) ap st := by
  have h1 : print_directive d ap st = Res.ok ap st := by
    unfold print_directive
    rw [if_neg hc, if_neg hs, if_neg hdd]
  refine ⟨h1, ?_⟩
  obtain ⟨hlt, hget⟩ := List.getElem?_eq_some.mp hi
  obtain ⟨hlt1, hget1⟩ := List.getElem?_eq_some.mp hd
  rw [print_pad_loop, if_neg (by omega), List.getD_eq_getElem _ _ hlt,
    List.getD_eq_getElem _ _ hlt1, hget, hget1, dif_neg (by decide), if_pos rfl, h1]
  rfl

/-- C12 at its scenario: `print_pad("%x%d", 7)` on an empty pad stores exactly
the one word 7 at `PAD_START`. -/
theorem unknown_directive_skipped_witness :
    (print_directive 120 [Arg.int 7] State.init = Res.ok [Arg.int 7] State.init ∧
      print_pad_loop (cstr "%x%d") 0 [Arg.int 7] State.init
        = print_pad_loop (cstr "%x%d") (0 + 2) [Arg.int 7] State.init) ∧
    print_pad (cstr "%x%d") [Arg.int 7] State.init
      = Res.ok () ⟨0, 4, 0, [Store.sw PAD_START 7]⟩ := by
  refine ⟨unknown_directive_skipped (cstr "%x%d") 0 120 [Arg.int 7] State.init
    (by decide) (by decide) (by decide) (by decide) (by decide) (by decide), ?_⟩
  rw [print_pad_eq_from]
  decide


/-! ## The alignment residue -/

/-- C13, the code at the failing input: in the initial state (residue 0)
`palloc(5)` returns without `ebreak` and leaves the residue at 5, outside
`[0, 4)`: `sizeof(int) - 5` wraps below zero, so `pad_align < sizeof(int) - t`
holds and the residue becomes `pad_align + t`. -/
theorem palloc_five_residue_out_of_range :
    State.init.pad_align < 4 ∧
    palloc 5 State.init = Res.ok PAD_START ⟨0, 5, 5, []⟩ ∧ ¬ (5 < 4) ∧
    wsub 4 5 = 0xFFFFFFFF := by
  decide

/-- A zero-size request returns the cursor and changes nothing. -/
theorem palloc_zero (st : State) (hu : st.pad_used ≤ PAD_SIZE) (ha : st.pad_align < 4) :
    palloc 0 st = Res.ok (PAD_START + st.pad_used) st := by
  have h1 : wadd st.pad_used 0 = st.pad_used :=
    wadd_small (by simp only [PAD_SIZE] at hu; norm_num; omega)
  have h0 : ¬ (0 ≥ 4 ∧ st.pad_align > 0) := by omega
  have h2 : wsub (wadd PAD_START st.pad_used) 0 = PAD_START + st.pad_used := by
    simp only [PAD_SIZE, PAD_START] at *
    rw [wadd_small (by norm_num; omega), wsub_small (by omega) (by norm_num; omega)]
    omega
  have h3 : wsub 4 0 = 4 := by decide
  have h4 : wadd st.pad_align 0 = st.pad_align := wadd_small (by norm_num; omega)
  simp only [palloc, h1, if_neg h0, h2, h3, h4, gt_iff_lt, if_neg (Nat.not_lt.mpr hu), if_pos ha]

/-- For a request of size 0, 1 or 4 made when the residue is the cursor modulo
4, a call that returns leaves the residue equal to the new cursor modulo 4: it
is 0 when the call reached or crossed a multiple of 4 and the old residue plus
the size otherwise. -/
theorem palloc_residue_step (t : Nat) (st : State) (ht : t = 0 ∨ t = 1 ∨ t = 4)
    (hu : st.pad_used ≤ PAD_SIZE) (ha : st.pad_align = st.pad_used % 4)
    (p : Nat) (st1 : State) (h : palloc t st = Res.ok p st1) :
    st1.pad_used ≤ PAD_SIZE ∧ st1.pad_align = st1.pad_used % 4 ∧
    (st.pad_used / 4 < st1.pad_used / 4 → st1.pad_align = 0) ∧
    (¬ st.pad_used / 4 < st1.pad_used / 4 → st1.pad_align = st.pad_align + t) := by
  rcases ht with rfl | rfl | rfl
  · rw [palloc_zero st hu (by omega)] at h
    simp only [Res.ok.injEq] at h
    obtain ⟨_, rfl⟩ := h
    exact ⟨hu, ha, fun hlt => absurd hlt (Nat.lt_irrefl _), fun _ => rfl⟩
  · rw [palloc_one st hu] at h
    by_cases hfull : PAD_SIZE < st.pad_used + 1
    · rw [if_pos hfull] at h
      cases h
    · rw [if_neg hfull] at h
      simp only [Res.ok.injEq] at h
      obtain ⟨_, rfl⟩ := h
      simp only
      by_cases h3 : st.pad_align < 3
      · rw [if_pos h3, wadd_small (by norm_num; omega)]
        refine ⟨by omega, by omega, fun hlt => ?_, fun _ => rfl⟩
        omega
      · rw [if_neg h3]
        refine ⟨by omega, by omega, fun _ => rfl, fun hlt => ?_⟩
        omega
  · rw [palloc_four st hu ha] at h
    have hge := up4_ge st.pad_used
    have hmod := up4_mod st.pad_used
    by_cases hfull : PAD_SIZE < up4 st.pad_used + 4
    · rw [if_pos hfull] at h
      cases h
    · rw [if_neg hfull] at h
      simp only [Res.ok.injEq] at h
      obtain ⟨_, rfl⟩ := h
      simp only
      refine ⟨by omega, by omega, fun _ => trivial, fun hlt => ?_⟩
      omega

/-- Runs of requests of sizes 0, 1 and 4 keep the residue equal to the cursor
modulo 4. -/
theorem palloc_seq_residue (ts : List Nat) :
    ∀ (st st1 : State) (ps : List Nat), (∀ t ∈ ts, t = 0 ∨ t = 1 ∨ t = 4) →
      st.pad_used ≤ PAD_SIZE → st.pad_align = st.pad_used % 4 →
      palloc_seq ts st = Res.ok ps st1 →
      st1.pad_used ≤ PAD_SIZE ∧ st1.pad_align = st1.pad_used % 4 := by
  induction ts with
  | nil =>
    intro st st1 ps _ hu ha h
    simp only [palloc_seq, Res.ok.injEq] at h
    obtain ⟨_, rfl⟩ := h
    exact ⟨hu, ha⟩
  | cons t ts ih =>
    intro st st1 ps hts hu ha h
    unfold palloc_seq at h
    obtain ⟨p0, st2, h1, h2⟩ := Res.bind_eq_ok h
    obtain ⟨ps1, st3, h3, h4⟩ := Res.bind_eq_ok h2
    simp only [Res.ok.injEq] at h4
    obtain ⟨_, rfl⟩ := h4
    obtain ⟨hu2, ha2, _, _⟩ :=
      palloc_residue_step t st (hts t (List.mem_cons_self _ _)) hu ha p0 st2 h1
    exact ih st2 st3 ps1 (fun x hx => hts x (List.mem_cons_of_mem _ hx)) hu2 ha2 h3

/-- C14 as stated fails: from the initial state `palloc(3)` then `palloc(2)`
return without `ebreak` and leave the cursor at 5 with residue 0, not
`5 mod 4 = 1`: the second call crosses a word boundary and resets the residue
to 0 although one byte of the next word is already consumed. -/
theorem residue_reset_loses_remainder :
    ¬ (∀ (ts ps : List Nat) (st : State), palloc_seq ts State.init = Res.ok ps st →
        st.pad_align = st.pad_used % 4) := by
  intro h
  have h1 : palloc_seq [3, 2] State.init = Res.ok [PAD_START, PAD_START + 3] ⟨0, 5, 0, []⟩ := by
    decide
  have h2 := h _ _ _ h1
  revert h2
  decide

/-- C14 (amended): after every run of `palloc` calls of sizes 0, 1 and 4 made
from the initial state in which no call traps, the residue equals the pad
cursor modulo 4, and a further call of one of these sizes that returns sets the
residue to 0 when it reaches or crosses a word boundary (the cursor divided by
4 increases) and to the old residue plus the size otherwise. -/
theorem pad_residue_tracks_cursor (ts ps : List Nat) (st : State)
    (hts : ∀ t ∈ ts, t = 0 ∨ t = 1 ∨ t = 4)
    (h : palloc_seq ts State.init = Res.ok ps st) :
    st.pad_align = st.pad_used % 4 ∧
    ∀ (t p : Nat) (st1 : State), t = 0 ∨ t = 1 ∨ t = 4 → palloc t st = Res.ok p st1 →
      st1.pad_align = st1.pad_used % 4 ∧
      (st.pad_used / 4 < st1.pad_used / 4 → st1.pad_align = 0) ∧
      (¬ st.pad_used / 4 < st1.pad_used / 4 → st1.pad_align = st.pad_align + t) := by
  obtain ⟨hu, ha⟩ := palloc_seq_residue ts State.init st ps hts (by simp [State.init])
    (by simp [State.init]) h
  exact ⟨ha, fun t p st1 ht h1 => (palloc_residue_step t st ht hu ha p st1 h1).2⟩

/-- The amended C14 at the run `[1, 1, 4, 0, 1]`. -/
theorem pad_residue_tracks_cursor_witness :
    palloc_seq [1, 1, 4, 0, 1] State.init
      = Res.ok [PAD_START, PAD_START + 1, PAD_START + 4, PAD_START + 8, PAD_START + 8]
          ⟨0, 9, 1, []⟩ ∧
    (1 = 9 % 4 ∧
    ∀ (t p : Nat) (st1 : State), t = 0 ∨ t = 1 ∨ t = 4 →
      palloc t ⟨0, 9, 1, []⟩ = Res.ok p st1 →
      st1.pad_align = st1.pad_used % 4 ∧
      (9 / 4 < st1.pad_used / 4 → st1.pad_align = 0) ∧
      (¬ 9 / 4 < st1.pad_used / 4 → st1.pad_align = 1 + t)) := by
  have h : palloc_seq [1, 1, 4, 0, 1] State.init
      = Res.ok [PAD_START, PAD_START + 1, PAD_START + 4, PAD_START + 8, PAD_START + 8]
          ⟨0, 9, 1, []⟩ := by decide
  exact ⟨h, pad_residue_tracks_cursor [1, 1, 4, 0, 1] _ _ (by decide) h⟩


/-! ## Cursor monotonicity, heap alignment and the two regions -/

/-- C15, the code at the failing input: with the heap cursor at 8, within
`HEAP_SIZE`, `malloc(0xFFFFFFFC)` returns without `ebreak` and leaves the cursor
at 4, below its value before the call; with the pad cursor at 8 (after two
`palloc(4)`), `palloc(0xFFFFFFFC)` likewise returns and leaves the pad cursor
at 4. Both sums wrap modulo `2^32`. -/
theorem cursor_decreases_on_wrap :
    (8 ≤ HEAP_SIZE ∧ malloc 0xFFFFFFFC ⟨8, 0, 0, []⟩ = Res.ok 0x8008 ⟨4, 0, 0, []⟩ ∧ 4 < 8) ∧
    (palloc_seq [4, 4] State.init = Res.ok [PAD_START, PAD_START + 4] ⟨0, 8, 0, []⟩ ∧
      palloc 0xFFFFFFFC ⟨0, 8, 0, []⟩ = Res.ok (PAD_START + 8) ⟨0, 4, 0xFFFFFFFC, []⟩ ∧
      4 < 8) := by
  decide

/-- Without 32-bit wrap-around the heap cursor after `malloc`, returning or
halting, is the old cursor plus the rounded size, hence not smaller. -/
theorem malloc_cursor_no_wrap (t : Nat) (st : State) (h : st.heap_used + round_up t < 2 ^ 32) :
    (∀ p st1, malloc t st = Res.ok p st1 → st1.heap_used = st.heap_used + round_up t) ∧
    (∀ st1, malloc t st = Res.trap st1 → st1.heap_used = st.heap_used + round_up t) := by
  have hr := le_round_up t
  have hb : (if t % 4 > 0 then wsub (wadd t 4) (t % 4) else t) = round_up t := by
    unfold round_up at *
    split_ifs at * <;> try omega
    rw [wadd_small (by norm_num at *; omega), wsub_small (by omega) (by norm_num at *; omega)]
  unfold malloc
  simp only [hb, wadd_small h]
  constructor
  · intro p st1 h1
    split_ifs at h1
    simp only [Res.ok.injEq] at h1
    rw [← h1.2]
  · intro st1 h1
    split_ifs at h1
    simp only [Res.trap.injEq] at h1
    rw [← h1]

/-- One call of `malloc` keeps the heap cursor a multiple of 4 and returns a
multiple of 4. -/
theorem malloc_aligned (t : Nat) (st : State) (h : st.heap_used % 4 = 0) :
    (∀ p st1, malloc t st = Res.ok p st1 → p % 4 = 0 ∧ st1.heap_used % 4 = 0) ∧
    (∀ st1, malloc t st = Res.trap st1 → st1.heap_used % 4 = 0) := by
  unfold malloc
  simp only [wadd, wsub, HEAP_START]
  norm_num
  constructor
  · intro p st1 h1
    split_ifs at h1 <;> simp only [Res.ok.injEq] at h1 <;> obtain ⟨rfl, rfl⟩ := h1 <;>
      simp only <;> omega
  · intro st1 h1
    split_ifs at h1 <;> simp only [Res.trap.injEq] at h1 <;> subst h1 <;> simp only <;> omega

/-- Runs of `malloc` calls keep the heap cursor a multiple of 4. -/
theorem malloc_seq_aligned (ts : List Nat) :
    ∀ (st : State), st.heap_used % 4 = 0 →
      (∀ ps st1, malloc_seq ts st = Res.ok ps st1 →
        st1.heap_used % 4 = 0 ∧ ∀ p ∈ ps, p % 4 = 0) ∧
      (∀ st1, malloc_seq ts st = Res.trap st1 → st1.heap_used % 4 = 0) := by
  induction ts with
  | nil =>
    intro st h
    constructor
    · intro ps st1 h1
      simp only [malloc_seq, Res.ok.injEq] at h1
      obtain ⟨rfl, rfl⟩ := h1
      exact ⟨h, by simp⟩
    · intro st1 h1
      simp [malloc_seq] at h1
  | cons t ts ih =>
    intro st h
    obtain ⟨hok, htrap⟩ := malloc_aligned t st h
    constructor
    · intro ps st1 h1
      unfold malloc_seq at h1
      obtain ⟨p0, st2, h2, h3⟩ := Res.bind_eq_ok h1
      obtain ⟨ps1, st3, h4, h5⟩ := Res.bind_eq_ok h3
      simp only [Res.ok.injEq] at h5
      obtain ⟨rfl, rfl⟩ := h5
      obtain ⟨hp0, hst2⟩ := hok p0 st2 h2
      obtain ⟨hst3, hps⟩ := (ih st2 hst2).1 ps1 st3 h4
      refine ⟨hst3, fun p hp => ?_⟩
      rcases List.mem_cons.mp hp with rfl | hp1
      · exact hp0
      · exact hps p hp1
    · intro st1 h1
      unfold malloc_seq at h1
      cases h2 : malloc t st with
      | ok p0 st2 =>
        rw [h2] at h1
        simp only [Res.bind] at h1
        cases h4 : malloc_seq ts st2 with
        | ok ps1 st3 => rw [h4] at h1; cases h1
        | trap st3 =>
          rw [h4] at h1
          simp only [Res.trap.injEq] at h1
          subst h1
          exact (ih st2 (hok p0 st2 h2).2).2 st3 h4
        | undef => rw [h4] at h1; cases h1
      | trap st2 =>
        rw [h2] at h1
        simp only [Res.bind, Res.trap.injEq] at h1
        subst h1
        exact htrap st2 h2
      | undef => rw [h2] at h1; cases h1

/-- C16: in every run of `malloc` calls made from the initial state that
returns, the heap cursor is a multiple of 4 at the end (hence after each call,
every prefix of a run being a run) and every returned address is a multiple of
4; if the run halts at `ebreak`, the cursor is a multiple of 4 there too. -/
theorem malloc_word_aligned (ts : List Nat) :
    (∀ (ps : List Nat) (st : State), malloc_seq ts State.init = Res.ok ps st →
      st.heap_used % 4 = 0 ∧ ∀ p ∈ ps, p % 4 = 0) ∧
    (∀ (st : State), malloc_seq ts State.init = Res.trap st → st.heap_used % 4 = 0) :=
  malloc_seq_aligned ts State.init (by decide)

/-- C16 at the run `[3, 1, 0xFFFFFFFF, 6]`. -/
theorem malloc_word_aligned_witness :
    malloc_seq [3, 1, 0xFFFFFFFF, 6] State.init
      = Res.ok [0x8000, 0x8004, 0x8008, 0x8008] ⟨16, 0, 0, []⟩ ∧
    (16 % 4 = 0 ∧ ∀ p ∈ [0x8000, 0x8004, 0x8008, 0x8008], p % 4 = 0) := by
  have h : malloc_seq [3, 1, 0xFFFFFFFF, 6] State.init
      = Res.ok [0x8000, 0x8004, 0x8008, 0x8008] ⟨16, 0, 0, []⟩ := by decide
  exact ⟨h, (malloc_word_aligned [3, 1, 0xFFFFFFFF, 6]).1 _ _ h⟩

/-- The Heap Region ends before the Pad Region starts. -/
theorem regions_disjoint : HEAP_START + HEAP_SIZE ≤ PAD_START := by decide

/-- C17, the code at the failing input: in the initial state
`malloc(0xFFFFFFFF)` returns `HEAP_START` without `ebreak` (the rounded size
wraps to 0) and leaves the state unchanged, and `palloc(1)` returns
`PAD_START`; the byte at `PAD_START` lies in the block
`[HEAP_START, HEAP_START + 0xFFFFFFFF)` returned by `malloc` and in the block
`[PAD_START, PAD_START + 1)` returned by `palloc`, although the two regions are
disjoint. -/
theorem wrapped_heap_block_covers_pad :
    HEAP_START + HEAP_SIZE ≤ PAD_START ∧
    malloc 0xFFFFFFFF State.init = Res.ok HEAP_START State.init ∧
    palloc 1 State.init = Res.ok PAD_START ⟨0, 1, 1, []⟩ ∧
    (HEAP_START ≤ PAD_START ∧ PAD_START < HEAP_START + 0xFFFFFFFF) ∧
    (PAD_START ≤ PAD_START ∧ PAD_START < PAD_START + 1) := by
  decide

/-- Blocks returned by `malloc` within the size budget and blocks returned by
`palloc` for requests of at most 4 bytes share no byte. -/
theorem heap_and_pad_blocks_disjoint (ts us ps qs : List Nat) (st st1 : State)
    (hts : (ts.map round_up).sum ≤ HEAP_SIZE) (hus : ∀ u ∈ us, u ≤ 4)
    (h1 : malloc_seq ts State.init = Res.ok ps st)
    (h2 : palloc_seq us State.init = Res.ok qs st1) :
    ∀ (i j p t q u x : Nat), ps[i]? = some p → ts[i]? = some t →
      qs[j]? = some q → us[j]? = some u →
      ¬ (p ≤ x ∧ x < p + t ∧ q ≤ x ∧ x < q + u) := by
  intro i j p t q u x hp ht hq hu
  rw [malloc_seq_ok ts State.init (by simpa [State.init] using hts)] at h1
  simp only [Res.ok.injEq] at h1
  rw [← h1.1] at hp
  have hb := heap_addrs_bounds _ _ i p t hp ht
  have hr := le_round_up t
  have hq1 := (palloc_small_blocks us qs st1 hus h2).1 j q u hq hu
  simp only [State.init, Nat.add_zero, HEAP_START, HEAP_SIZE, PAD_START] at *
  omega

/-! ## Emission is compositional -/

theorem Res.bind_ok_unit (r : Res Unit) : (r.bind fun _ st => Res.ok () st) = r := by
  cases r <;> rfl

/-- A directive whose argument is present with the right type runs one of
`print_c`, `print_s`, `print_d` and hands on the remaining arguments, whatever
follows them in the list. -/
theorem print_directive_append (d : Nat) (a1 ap1 : List Arg) (st : State)
    (h : directive_match d a1 = some ap1) :
    ∃ r : Res Unit, ∀ a2 : List Arg,
      print_directive d (a1 ++ a2) st = r.bind fun _ st1 => Res.ok (ap1 ++ a2) st1 := by
  unfold directive_match at h
  unfold print_directive
  by_cases h99 : d = 99
  · rw [if_pos h99] at h
    match a1, h with
    | Arg.int v :: a3, h =>
      simp only [Option.some.injEq] at h
      subst h
      exact ⟨print_c v st, fun a2 => by rw [if_pos h99]; rfl⟩
  · rw [if_neg h99] at h
    by_cases h115 : d = 115
    · rw [if_pos h115] at h
      match a1, h with
      | Arg.str s :: a3, h =>
        simp only [Option.some.injEq] at h
        subst h
        exact ⟨print_s s st, fun a2 => by rw [if_neg h99, if_pos h115]; rfl⟩
    · rw [if_neg h115] at h
      by_cases h100 : d = 100
      · rw [if_pos h100] at h
        match a1, h with
        | Arg.int v :: a3, h =>
          simp only [Option.some.injEq] at h
          subst h
          exact ⟨print_d v st, fun a2 => by rw [if_neg h99, if_neg h115, if_pos h100]; rfl⟩
      · rw [if_neg h100] at h
        cases h

/-- The suffix view of a concatenated format, when the arguments of the first
part match it, runs the first part and then the second. -/
theorem print_pad_from_append (n : Nat) : ∀ (f1 : List Nat), f1.length ≤ n →
    ∀ (f2 : List Nat) (a1 a2 : List Arg) (st : State), args_match f1 a1 = true →
      print_pad_from (f1 ++ f2) (a1 ++ a2) st
        = (print_pad_from f1 a1 st).bind fun _ st1 => print_pad_from f2 a2 st1 := by
  induction n using Nat.strong_induction_on with
  | _ n ih =>
    intro f1 hlen f2 a1 a2 st hm
    match f1, hlen with
    | [], _ =>
      simp only [args_match] at hm
      rw [isEmpty_eq_nil hm]
      rfl
    | [c], _ =>
      simp only [args_match, Bool.and_eq_true, decide_eq_true_eq] at hm
      obtain ⟨⟨h0, h37⟩, he⟩ := hm
      rw [isEmpty_eq_nil he]
      simp only [List.singleton_append, List.nil_append]
      rw [print_pad_from_lit c f2 a2 st h0 h37, print_pad_from_lit c [] [] st h0 h37,
        Res.bind_assoc]
      rfl
    | c :: d :: rest, hlen =>
      simp only [List.length_cons] at hlen
      unfold args_match at hm
      by_cases h0 : c = 0
      · rw [if_pos h0] at hm
        cases hm
      · rw [if_neg h0] at hm
        by_cases h37 : c = 37
        · rw [if_pos h37] at hm
          subst h37
          cases hdm : directive_match d a1 with
          | none => rw [hdm] at hm; cases hm
          | some ap1 =>
            rw [hdm] at hm
            simp only at hm
            obtain ⟨r, hr⟩ := print_directive_append d a1 ap1 st hdm
            have hr0 := hr []
            simp only [List.append_nil] at hr0
            simp only [List.cons_append]
            rw [print_pad_from_pct, print_pad_from_pct, hr a2, hr0, Res.bind_assoc,
              Res.bind_assoc, Res.bind_assoc]
            congr 1
            funext _ st1
            exact ih rest.length (by omega) rest (Nat.le_refl _) f2 ap1 a2 st1 hm
        · rw [if_neg h37] at hm
          simp only [List.cons_append]
          rw [print_pad_from_lit c _ _ st h0 h37, print_pad_from_lit c _ _ st h0 h37,
            Res.bind_assoc]
          congr 1
          funext _ st1
          exact ih (d :: rest).length (by simp only [List.length_cons]; omega) (d :: rest)
            (Nat.le_refl _) f2 a1 a2 st1 hm

/-- C18: for all format strings `f1` and `f2` and argument lists `a1` and `a2`
such that `f1` has no NUL, every `%` of `f1` is followed by a directive letter
and `a1` matches `f1`, and for every state, `print_pad(f1 ++ f2, a1 ++ a2)` has
the same outcome (return, `ebreak` or undefined) and the same final state (pad
cursor, residue and stores) as `print_pad(f1, a1)` followed by
`print_pad(f2, a2)`. -/
theorem print_pad_compositional (f1 f2 : List Nat) (a1 a2 : List Arg) (st : State)
    (h1 : args_match f1 a1 = true) :
    print_pad (f1 ++ f2) (a1 ++ a2) st = print_pad_seq [(f1, a1), (f2, a2)] st := by
  simp only [print_pad_seq, print_pad_eq_from, Res.bind_ok_unit]
  exact print_pad_from_append f1.length f1 (Nat.le_refl _) f2 a1 a2 st h1

/-- C18 at its scenario: `print_pad("%d%d", 1, 2)` and `print_pad("%d", 1)`
followed by `print_pad("%d", 2)`, from the initial state. -/
theorem print_pad_compositional_witness :
    cstr "%d%d" = cstr "%d" ++ cstr "%d" ∧
    print_pad (cstr "%d" ++ cstr "%d") ([Arg.int 1] ++ [Arg.int 2]) State.init
      = print_pad_seq [(cstr "%d", [Arg.int 1]), (cstr "%d", [Arg.int 2])] State.init :=
  ⟨by decide, print_pad_compositional (cstr "%d") (cstr "%d") [Arg.int 1] [Arg.int 2]
    State.init (by decide)⟩

/-! ## The scan index of `print_pad` -/

/-- The loop of `print_pad` runs the bodies at the indices of its control
skeleton, in order. -/
theorem print_pad_loop_eq_items (format : List Nat) (n : Nat) :
    ∀ (i : Nat) (idx : List Nat), format.length + 1 - i ≤ n → scan_loop format i = some idx →
      ∀ (ap : List Arg) (st : State),
        print_pad_loop format i ap st = run_items format idx ap st := by
  induction n using Nat.strong_induction_on with
  | _ n ih =>
    intro i idx hn hscan ap st
    rw [scan_loop] at hscan
    rw [print_pad_loop]
    by_cases hpast : format.length < i
    · rw [if_pos hpast] at hscan
      cases hscan
    · rw [if_neg hpast] at hscan ⊢
      by_cases h0 : format.getD i 0 = 0
      · rw [dif_pos h0] at hscan ⊢
        simp only [Option.some.injEq] at hscan
        subst hscan
        rfl
      · rw [dif_neg h0] at hscan ⊢
        have hlt : i < format.length := by
          by_contra hge
          exact h0 (List.getD_eq_default _ _ (Nat.le_of_not_lt hge))
        by_cases h37 : format.getD i 0 = 37
        · rw [if_pos h37] at hscan ⊢
          cases hrec : scan_loop format (i + 2) with
          | none => rw [hrec] at hscan; cases hscan
          | some idx1 =>
            rw [hrec] at hscan
            simp only [Option.map_some', Option.some.injEq] at hscan
            subst hscan
            rw [run_items, if_pos h37]
            congr 1
            funext ap1 st1
            exact ih (format.length + 1 - (i + 2)) (by omega) (i + 2) idx1 (Nat.le_refl _)
              hrec ap1 st1
        · rw [if_neg h37] at hscan ⊢
          cases hrec : scan_loop format (i + 1) with
          | none => rw [hrec] at hscan; cases hscan
          | some idx1 =>
            rw [hrec] at hscan
            simp only [Option.map_some', Option.some.injEq] at hscan
            subst hscan
            rw [run_items, if_neg h37]
            congr 1
            funext _ st1
            exact ih (format.length + 1 - (i + 1)) (by omega) (i + 1) idx1 (Nat.le_refl _)
              hrec ap st1

/-- In a format without NUL whose last character is not `%`, the control
skeleton entered at an index inside the string never steps past the
terminator, and its iterations tile the rest of the string. -/
theorem scan_loop_in_bounds (format : List Nat) (h0 : ∀ c ∈ format, c ≠ 0)
    (hlast : format.getLast? ≠ some 37) (n : Nat) :
    ∀ (i : Nat), format.length - i ≤ n → i ≤ format.length →
      ∃ idx, scan_loop format i = some idx ∧ Tiles format i idx ∧
        idx.length ≤ format.length - i := by
  induction n using Nat.strong_induction_on with
  | _ n ih =>
    intro i hn hi
    rw [scan_loop, if_neg (by omega)]
    rcases Nat.eq_or_lt_of_le hi with heq | hlt
    · subst heq
      rw [dif_pos (List.getD_eq_default _ _ (Nat.le_refl _))]
      exact ⟨[], rfl, rfl, by simp⟩
    · have hget : format.getD i 0 = format[i] := List.getD_eq_getElem _ _ hlt
      have hne : format.getD i 0 ≠ 0 := by
        rw [hget]
        exact h0 _ (List.getElem_mem _)
      rw [dif_neg hne]
      by_cases h37 : format.getD i 0 = 37
      · rw [if_pos h37]
        have hlt1 : i + 1 < format.length := by
          by_contra hge
          have hi1 : i = format.length - 1 := by omega
          apply hlast
          rw [List.getLast?_eq_getElem?, ← hi1, List.getElem?_eq_getElem hlt, ← hget, h37]
        obtain ⟨idx, hs, ht, hl⟩ := ih (format.length - (i + 2)) (by omega) (i + 2)
          (Nat.le_refl _) (by omega)
        refine ⟨i :: idx, by rw [hs]; rfl, ?_, ?_⟩
        · show i = i ∧ _
          rw [if_pos h37]
          exact ⟨rfl, hlt1, ht⟩
        · simp only [List.length_cons]
          omega
      · rw [if_neg h37]
        obtain ⟨idx, hs, ht, hl⟩ := ih (format.length - (i + 1)) (by omega) (i + 1)
          (Nat.le_refl _) (by omega)
        refine ⟨i :: idx, by rw [hs]; rfl, ?_, ?_⟩
        · show i = i ∧ _
          rw [if_neg h37]
          exact ⟨rfl, hlt, ht⟩
        · simp only [List.length_cons]
          omega

/-- C19: for every format string without NUL whose last character is not `%`,
the scan index of `print_pad` never steps past the terminator: the control
skeleton of the loop yields a list `idx` of iteration indices that tiles the
string from index 0 to the terminator (each literal character and each
two-character directive is the item of exactly one iteration, left to right,
all characters read lying inside the string), there are at most
`length(format)` iterations, and `print_pad` runs exactly the loop bodies at
these indices. -/
theorem print_pad_scan_in_bounds (format : List Nat) (ap : List Arg) (st : State)
    (h0 : ∀ c ∈ format, c ≠ 0) (hlast : format.getLast? ≠ some 37) :
    ∃ idx, scan_loop format 0 = some idx ∧ Tiles format 0 idx ∧
      idx.length ≤ format.length ∧ print_pad format ap st = run_items format idx ap st := by
  obtain ⟨idx, hs, ht, hl⟩ :=
    scan_loop_in_bounds format h0 hlast format.length 0 (by omega) (by omega)
  exact ⟨idx, hs, ht, by simpa using hl,
    print_pad_loop_eq_items format (format.length + 1) 0 idx (by omega) hs ap st⟩

/-- C19 at the format `"a%db"` of `print_pad("a%db", 7)`. -/
theorem print_pad_scan_in_bounds_witness :
    ∃ idx, scan_loop (cstr "a%db") 0 = some idx ∧ Tiles (cstr "a%db") 0 idx ∧
      idx.length ≤ (cstr "a%db").length ∧
      print_pad (cstr "a%db") [Arg.int 7] State.init
        = run_items (cstr "a%db") idx [Arg.int 7] State.init :=
  print_pad_scan_in_bounds (cstr "a%db") [Arg.int 7] State.init (by decide) (by decide)

/-- A `%` as the last character makes the index step past the terminator. -/
theorem scan_loop_trailing_pct : scan_loop [97, 37] 0 = none := by
  have h2 : scan_loop [97, 37] 3 = none := by
    rw [scan_loop, if_pos (by decide)]
  have h1 : scan_loop [97, 37] 1 = none := by
    rw [scan_loop, if_neg (by decide), dif_neg (by decide), if_pos (by decide), h2]
    rfl
  rw [scan_loop, if_neg (by decide), dif_neg (by decide), if_neg (by decide), h1]
  rfl

/-! ## The Fibonacci table -/

theorem fib32_lt (n : Nat) : fib32 n < 2 ^ 32 := by
  match n with
  | 0 => decide
  | 1 => decide
  | n + 2 => exact Nat.mod_lt _ (by norm_num)

theorem fib_hist_succ (fibo n : Nat) :
    fib_hist fibo (n + 1) = Store.sw (wadd fibo (wmul 4 n)) (fib32 n) :: fib_hist fibo n := rfl

/-- A word store at the head of memory is read back by a word load at its
address. -/
theorem load32_head (a v : Nat) (m : List Store) (hv : v < 2 ^ 32) :
    load32 (Store.sw a v :: m) a = some v := by
  have hb : ∀ k, k < 4 → load8 (Store.sw a v :: m) (a + k) = some (v / 256 ^ k % 256) := by
    intro k hk
    simp only [load8, Store.byteAt]
    rw [if_pos (by omega), Nat.add_sub_cancel_left]
  have h0 := hb 0 (by norm_num)
  have h1 := hb 1 (by norm_num)
  have h2 := hb 2 (by norm_num)
  have h3 := hb 3 (by norm_num)
  simp only [Nat.add_zero] at h0
  simp only [load32, h0, h1, h2, h3, Option.some.injEq]
  norm_num at hv ⊢
  omega

/-- A word load skips a word store at the head of memory that lies entirely
before or after the word loaded. -/
theorem load32_skip (a b v : Nat) (m : List Store) (h : b + 4 ≤ a ∨ a + 4 ≤ b) :
    load32 (Store.sw b v :: m) a = load32 m a := by
  apply load32_congr
  intro k hk
  simp only [load8, Store.byteAt]
  rw [if_neg (by omega)]


/-- Consecutive table entries are distinct words, also when the address wraps
modulo `2^32`. -/
theorem fib_addr_disjoint (fibo j : Nat) :
    wadd fibo (wmul 4 (j + 1)) + 4 ≤ wadd fibo (wmul 4 j) ∨
      wadd fibo (wmul 4 j) + 4 ≤ wadd fibo (wmul 4 (j + 1)) := by
  unfold wadd wmul
  norm_num
  omega

/-- One iteration of the loop: with the entries `0 .. i-1` stored last, the body
at `i ≥ 2` stores entry `i`. -/
theorem fibonacci_step_ok (fibo j : Nat) (st : State) (m : List Store)
    (hm : st.mem = fib_hist fibo (j + 2) ++ m) :
    fibonacci_step fibo (j + 2) st
      = Res.ok () { st with mem := fib_hist fibo (j + 3) ++ m } := by
  have h1 : load32 st.mem (wadd fibo (wmul 4 (j + 1))) = some (fib32 (j + 1)) := by
    rw [hm, fib_hist_succ, List.cons_append]
    exact load32_head _ _ _ (fib32_lt _)
  have h2 : load32 st.mem (wadd fibo (wmul 4 j)) = some (fib32 j) := by
    rw [hm, fib_hist_succ, fib_hist_succ, List.cons_append, List.cons_append,
      load32_skip _ _ _ _ (fib_addr_disjoint fibo j)]
    exact load32_head _ _ _ (fib32_lt _)
  unfold fibonacci_step
  simp only [Nat.add_sub_cancel, show j + 2 - 1 = j + 1 by omega, h1, h2]
  rw [fib_hist_succ (n := j + 2) fibo, hm]
  rfl

/-- The loop entered at `i ≥ 2` with the entries `0 .. i-1` stored last returns
with the entries `0 .. idx-1` stored last. -/
theorem fibonacci_loop_ok (fibo idx : Nat) (k : Nat) :
    ∀ (j : Nat) (st : State) (m : List Store), j + 2 + k = idx →
      st.mem = fib_hist fibo (j + 2) ++ m →
      fibonacci_loop fibo idx (j + 2) st = Res.ok () { st with mem := fib_hist fibo idx ++ m } := by
  induction k with
  | zero =>
    intro j st m hk hm
    rw [fibonacci_loop, if_neg (by omega)]
    have : idx = j + 2 := by omega
    rw [this, ← hm]
  | succ k ih =>
    intro j st m hk hm
    rw [fibonacci_loop, if_pos (by omega), fibonacci_step_ok fibo j st m hm]
    simp only [Res.bind]
    exact ih (j + 1) _ m (by omega) rfl

theorem malloc_addr_lt (t : Nat) (st st1 : State) (p : Nat) (h : malloc t st = Res.ok p st1) :
    p < 2 ^ 32 ∧ st1.mem = st.mem ∧ st1.pad_used = st.pad_used ∧ st1.pad_align = st.pad_align := by
  unfold malloc at h
  simp only at h
  split_ifs at h <;> simp only [Res.ok.injEq] at h <;> obtain ⟨rfl, rfl⟩ := h <;>
    exact ⟨Nat.mod_lt _ (by norm_num), rfl, rfl, rfl⟩

theorem fib_hist_two (fibo : Nat) (h : fibo < 2 ^ 32) :
    fib_hist fibo 2 = [Store.sw (wadd fibo 4) 1, Store.sw fibo 0] := by
  have h0 : wadd fibo (wmul 4 0) = fibo := by
    unfold wadd wmul
    norm_num at h ⊢
    omega
  have h1 : wmul 4 1 = 4 := by decide
  simp only [fib_hist, h0, h1, fib32]

/-- Whenever its `malloc` call returns and `idx ≥ 2`, `fibonacci` returns the
address `malloc` returned, having executed the word stores of the entries
`0 .. idx-1` in order. -/
theorem fibonacci_run (idx : Int) (st st1 : State) (fibo : Nat) (hidx : 2 ≤ idx)
    (h : malloc ((idx * 4) % 2 ^ 32).toNat st = Res.ok fibo st1) :
    fibonacci idx st
      = Res.ok fibo { st1 with mem := fib_hist fibo idx.toNat ++ st1.mem } := by
  obtain ⟨hlt, _⟩ := malloc_addr_lt _ st st1 fibo h
  unfold fibonacci
  rw [h]
  simp only [Res.bind]
  have hn : 0 + 2 + (idx.toNat - 2) = idx.toNat := by omega
  have := fibonacci_loop_ok fibo idx.toNat (idx.toNat - 2) 0
    { st1 with mem := Store.sw (wadd fibo 4) 1 :: Store.sw fibo 0 :: st1.mem } st1.mem hn
    (by rw [fib_hist_two fibo hlt]; rfl)
  simp only [Nat.zero_add] at this
  rw [this]

/-- In a table that does not wrap around the address space, entry `i` read back
from memory is the `i`-th Fibonacci value in 32-bit arithmetic. -/
theorem load32_fib_hist (fibo : Nat) (m : List Store) (n : Nat) :
    ∀ (i : Nat), i < n → fibo + 4 * n ≤ 2 ^ 32 →
      load32 (fib_hist fibo n ++ m) (fibo + 4 * i) = some (fib32 i) := by
  induction n with
  | zero => intro i hi; omega
  | succ n ih =>
    intro i hi hfit
    have haddr : wadd fibo (wmul 4 n) = fibo + 4 * n := by
      unfold wadd wmul
      norm_num at hfit ⊢
      omega
    rw [fib_hist_succ, List.cons_append, haddr]
    rcases Nat.eq_or_lt_of_le (Nat.le_of_lt_succ hi) with heq | hlt
    · subst heq
      exact load32_head _ _ _ (fib32_lt _)
    · rw [load32_skip _ _ _ _ (by omega)]
      exact ih i hlt (by omega)

/-- For `idx ≥ 2` whose table of `4 * idx` bytes fits below `HEAP_SIZE`,
`fibonacci(idx)` returns the address `HEAP_START` plus the heap cursor before
the call, advances the cursor by `4 * idx`, and leaves in memory a table whose
entry `i < idx` is the `i`-th Fibonacci value in 32-bit arithmetic. -/
theorem fibonacci_table (idx : Int) (st : State) (hidx : 2 ≤ idx)
    (hfit : st.heap_used + 4 * idx.toNat ≤ HEAP_SIZE) :
    ∃ st1, fibonacci idx st = Res.ok (HEAP_START + st.heap_used) st1 ∧
      st1.heap_used = st.heap_used + 4 * idx.toNat ∧
      ∀ (i : Nat), i < idx.toNat →
        load32 st1.mem (HEAP_START + st.heap_used + 4 * i) = some (fib32 i) := by
  have hsz : ((idx * 4) % 2 ^ 32).toNat = 4 * idx.toNat := by
    simp only [HEAP_SIZE] at hfit
    omega
  have hr : round_up (4 * idx.toNat) = 4 * idx.toNat := by
    unfold round_up
    rw [if_pos (by omega)]
  have hm := malloc_ok (4 * idx.toNat) st (by rw [hr]; exact hfit)
  rw [hr, ← hsz] at hm
  refine ⟨_, fibonacci_run idx st _ _ hidx hm, ?_, ?_⟩
  · show st.heap_used + ((idx * 4) % 2 ^ 32).toNat = _
    rw [hsz]
  · intro i hi
    exact load32_fib_hist _ _ _ i hi (by simp only [HEAP_START, HEAP_SIZE] at *; norm_num; omega)

/-- The scenario of `fibo.c`: `fibonacci(10)` (`FIBO_LEN`) after `malloc(10)`. -/
theorem fibonacci_ten :
    ∃ st1, fibonacci 10 ⟨12, 0, 0, []⟩ = Res.ok (HEAP_START + 12) st1 ∧
      st1.heap_used = 12 + 4 * 10 ∧
      ∀ (i : Nat), i < 10 → load32 st1.mem (HEAP_START + 12 + 4 * i) = some (fib32 i) :=
  fibonacci_table 10 ⟨12, 0, 0, []⟩ (by decide) (by decide)


/-- The 32-bit Fibonacci values modulo 4 repeat with period 6. -/
theorem fib32_mod_four_period (n : Nat) : fib32 (n + 6) % 4 = fib32 n % 4 := by
  have h : ∀ k, fib32 (k + 2) % 4 = (fib32 (k + 1) + fib32 k) % 4 := by
    intro k
    rw [fib32]
    omega
  have h2 : fib32 (n + 2) % 4 = (fib32 (n + 1) + fib32 n) % 4 := h n
  have h3 : fib32 (n + 3) % 4 = (fib32 (n + 2) + fib32 (n + 1)) % 4 := h (n + 1)
  have h4 : fib32 (n + 4) % 4 = (fib32 (n + 3) + fib32 (n + 2)) % 4 := h (n + 2)
  have h5 : fib32 (n + 5) % 4 = (fib32 (n + 4) + fib32 (n + 3)) % 4 := h (n + 3)
  have h6 : fib32 (n + 6) % 4 = (fib32 (n + 5) + fib32 (n + 4)) % 4 := h (n + 4)
  omega

theorem fib32_mod_four (k r : Nat) : fib32 (6 * k + r) % 4 = fib32 r % 4 := by
  induction k with
  | zero => simp
  | succ k ih =>
    rw [show 6 * (k + 1) + r = 6 * k + r + 6 by omega, fib32_mod_four_period, ih]

/-- C20, the code at the failing input: `fibonacci(1073741825)` (`2^30 + 1`, a
valid `int`) from the initial state. The size `idx * sizeof(int)` wraps to 4,
`malloc(4)` returns `HEAP_START` without `ebreak`, and the loop stores
`2^30 + 1` words; the address of entry `2^30` wraps to `HEAP_START`, so the
last store overwrites entry 0: `t[0]` read back is the Fibonacci value of index
`2^30`, which is 3 modulo 4, not 0. -/
theorem fibonacci_table_overwritten :
    malloc (((1073741825 : Int) * 4) % 2 ^ 32).toNat State.init
      = Res.ok HEAP_START ⟨4, 0, 0, []⟩ ∧
    ∃ st1, fibonacci 1073741825 State.init = Res.ok HEAP_START st1 ∧
      load32 st1.mem HEAP_START = some (fib32 1073741824) ∧
      fib32 1073741824 % 4 = 3 ∧ fib32 1073741824 ≠ fib32 0 := by
  have hm : malloc (((1073741825 : Int) * 4) % 2 ^ 32).toNat State.init
      = Res.ok HEAP_START ⟨4, 0, 0, []⟩ := by
    have : (((1073741825 : Int) * 4) % 2 ^ 32).toNat = 4 := by decide
    rw [this]
    decide
  have hmod : fib32 1073741824 % 4 = 3 := by
    have h6 := fib32_mod_four 178956970 4
    have e : 6 * 178956970 + 4 = 1073741824 := by norm_num
    have h4 : fib32 4 % 4 = 3 := by decide
    rw [e, h4] at h6
    exact h6
  refine ⟨hm, _, fibonacci_run 1073741825 State.init _ HEAP_START (by norm_num) hm, ?_, hmod, ?_⟩
  · have e : (1073741825 : Int).toNat = 1073741824 + 1 := by decide
    have ha : wadd HEAP_START (wmul 4 1073741824) = HEAP_START := by decide
    show load32 (fib_hist HEAP_START (1073741825 : Int).toNat ++ []) HEAP_START = _
    rw [e, fib_hist_succ, ha, List.cons_append]
    exact load32_head _ _ _ (fib32_lt _)
  · intro h
    rw [h] at hmod
    have h0 : fib32 0 % 4 = 0 := by decide
    omega

end KeyV
